import Mathlib

/-!
# matcherpcre: the PCRE adapter of the generic matcher interface

A shallow embedding of `matcherpcre/matcher-pcre.go`.

* A Go `string` is its sequence of bytes (`GoString`).
* The backend (`pcre.Regexp`, `pcre.Matcher` of `gijsbers/go-pcre`) is an
  external capability.  A compiled pattern is a value of `Regexp`: its
  capture count, the result of `pcre_exec` from offset 0 on every subject,
  and its name table, together with the contract of `pcre_exec` on the
  offsets it reports.  `Matcher` is the library's thin mutable wrapper,
  threaded through the adapter's methods as an explicit state.
* A Go `panic` is the `panic` outcome; a loop that would not end is a run
  that exhausts its fuel (`stuck`).
-/

namespace Matcherpcre

/-- A Go `string`: its sequence of bytes, each byte a number below 256. -/
abbrev GoString := List Nat

/-- The ways a call can panic. -/
inductive Panic where
  /-- Source: `panic("Character to be escaped is missing")`. -/
  | escapeMissing
  /-- Source: `panic("Group index is missing")`. -/
  | groupIndexMissing
  /-- Go runtime: index out of range. -/
  | indexOutOfRange
  /-- Go runtime: slice bounds out of range. -/
  | sliceBounds
  deriving DecidableEq

/-- The outcome of running a piece of Go code. -/
inductive Outcome (α : Type) where
  /-- The code returned a value. -/
  | ret (a : α)
  /-- The code panicked. -/
  | panic (p : Panic)
  /-- The run was cut off: the loop had not ended when the fuel ran out. -/
  | stuck
  deriving DecidableEq

namespace Outcome

/-- Sequencing: the continuation runs only after a return. -/
def bind {α β : Type} : Outcome α → (α → Outcome β) → Outcome β
  | ret a, f => f a
  | panic p, _ => panic p
  | stuck, _ => stuck

/-- Post-processing of a returned value. -/
def map {α β : Type} (f : α → β) : Outcome α → Outcome β
  | ret a => ret (f a)
  | panic p => panic p
  | stuck => stuck

end Outcome

/-- Go slice expression `s[lo:hi]` on a string, with its bounds check. -/
def goSlice (s : GoString) (lo hi : Int) : Outcome GoString :=
  if 0 ≤ lo ∧ lo ≤ hi ∧ hi ≤ (s.length : Int) then
    Outcome.ret ((s.take hi.toNat).drop lo.toNat)
  else Outcome.panic Panic.sliceBounds

/-- Go conversion `string(b)` of a byte: the UTF-8 encoding of the code point
with the byte's value (one byte below 0x80, two bytes from 0x80 on). -/
def byteToString (b : Nat) : GoString :=
  if b < 128 then [b] else [192 + b / 64, 128 + b % 64]

/-- Library `strconv.Atoi` on a string of decimal digits (the only strings
`Replace` passes): the decimal value, and the largest `int` when the value
does not fit (the error is dropped by the caller). -/
def Atoi (s : GoString) : Nat :=
  min (s.foldl (fun acc d => acc * 10 + (d - 48)) 0) (2 ^ 63 - 1)

/-- Library `strings.Join(parts, "")`. -/
def stringsJoin (parts : List GoString) : GoString :=
  parts.foldr (fun p acc => p ++ acc) []

/-- Entry `i` of an offset vector, with Go's index check. -/
def ovAt (ov : List Int) (i : Nat) : Outcome Int :=
  match ov.get? i with
  | some v => Outcome.ret v
  | none => Outcome.panic Panic.indexOutOfRange

/-- The contract of `pcre_exec` on a successful match over `subject` for a
pattern with `groups` capture groups: the offset vector has
`3 * (1 + groups)` entries (the last third is workspace); the whole match is
set; every group `0..groups` is either unset (start below 0) or lies inside
the subject. -/
def ExecContract (groups : Nat) (subject : GoString) (ov : List Int) : Prop :=
  ov.length = 3 * (1 + groups) ∧
  0 ≤ ov.getD 0 0 ∧
  ∀ g, g ≤ groups →
    ov.getD (2 * g) 0 < 0 ∨
      (0 ≤ ov.getD (2 * g) 0 ∧ ov.getD (2 * g) 0 ≤ ov.getD (2 * g + 1) 0 ∧
        ov.getD (2 * g + 1) 0 ≤ (subject.length : Int))

/-- A compiled pattern (`pcre.Regexp`), as far as the adapter can observe it. -/
structure Regexp where
  /-- Library `Regexp.Groups()`: the number of capture groups of the pattern. -/
  groups : Nat
  /-- Library `pcre_exec` from offset 0 with flags 0: `none` when nothing
  matches, the offset vector of the first match otherwise. -/
  exec : GoString → Option (List Int)
  /-- Library `pcre_get_stringnumber`: the index of a named group. -/
  names : GoString → Option Nat
  /-- PCRE compiles at most 65535 capture groups. -/
  groups_le : groups ≤ 65535
  /-- The offsets `pcre_exec` reports obey its contract. -/
  exec_ok : ∀ subject ov, exec subject = some ov → ExecContract groups subject ov
  /-- A name resolves to a capture group of the pattern. -/
  names_ok : ∀ name g, names name = some g → 1 ≤ g ∧ g ≤ groups

/-- The library's matcher (`pcre.Matcher`): the pattern, the offset vector,
the flag of the last match attempt, and the subject of that attempt. -/
structure Matcher where
  /-- The pattern. -/
  re : Regexp
  /-- Scratch space for capture offsets. -/
  ovector : List Int
  /-- Whether the last match attempt succeeded. -/
  matched : Bool
  /-- The subject of the last match attempt. -/
  subjects : GoString

namespace Matcher

/-- Library `Matcher.MatchString(subject, 0)`: record the subject, run
`pcre_exec`, set the match flag; the offsets are overwritten on success. -/
def MatchString (m : Matcher) (subject : GoString) : Matcher × Bool :=
  match m.re.exec subject with
  | some ov => ({ m with ovector := ov, matched := true, subjects := subject }, true)
  | none => ({ m with matched := false, subjects := subject }, false)

/-- Library `Matcher.Matches()`. -/
def Matches (m : Matcher) : Bool := m.matched

/-- Library `Matcher.Groups()`. -/
def Groups (m : Matcher) : Nat := m.re.groups

/-- Library `Matcher.Index()`: `nil` without a match, else the start and end
offsets of the whole match (entries 0 and 1 of the offset vector, which
always has at least 3 entries). -/
def Index (m : Matcher) : Option (Int × Int) :=
  if m.matched then some (m.ovector.getD 0 0, m.ovector.getD 1 0) else none

/-- Library `Matcher.GroupString(group)`: the slice of the subject between
the group's offsets, the empty string for an unset group. -/
def GroupString (m : Matcher) (group : Nat) : Outcome GoString :=
  (ovAt m.ovector (2 * group)).bind fun start =>
  (ovAt m.ovector (2 * group + 1)).bind fun stop =>
  if 0 ≤ start then goSlice m.subjects start stop else Outcome.ret []

/-- Library `Matcher.Present(group)`. -/
def Present (m : Matcher) (group : Nat) : Outcome Bool :=
  (ovAt m.ovector (2 * group)).map fun start => decide (0 ≤ start)

/-- Library `Matcher.NamedString(name)`: `none` stands for the error of an
unknown name. -/
def NamedString (m : Matcher) (name : GoString) : Option (Outcome GoString) :=
  match m.re.names name with
  | some g => some (m.GroupString g)
  | none => none

/-- Library `Matcher.NamedPresent(name)`: `none` stands for the error of an
unknown name. -/
def NamedPresent (m : Matcher) (name : GoString) : Option (Outcome Bool) :=
  match m.re.names name with
  | some g => some (m.Present g)
  | none => none

end Matcher

namespace Regexp

/-- Library `Regexp.MatcherString(subject, 0)`: a fresh matcher (offset
vector of `3 * (1 + groups)` zeros) after its first match attempt. -/
def MatcherString (re : Regexp) (subject : GoString) : Matcher :=
  (Matcher.MatchString
    { re := re, ovector := List.replicate (3 * (1 + re.groups)) 0,
      matched := false, subjects := [] } subject).1

end Regexp

/-- The adapter's matcher (`pcreMatcher`): the library matcher and the
remaining subject. -/
structure pcreMatcher where
  /-- Field `wm`. -/
  wm : Matcher
  /-- Field `subject`. -/
  subject : GoString

/-- Source `(*pcreRegexp).Search`: `none` is the `nil` matcher. -/
def Search (re : Regexp) (subject : GoString) : Option pcreMatcher :=
  let wm := re.MatcherString subject
  if !wm.Matches then none else some { wm := wm, subject := subject }

/-- The digit loop of `Replace` (source lines 109-115), started on the rest
of the template `repl[c:]` with the digits `grp` taken so far; returns the
final `grp` and the rest of the template at the final `c`.  On `break` the
digit that was looked at stays in the rest. -/
def Replace.digits (groups : Nat) : GoString → GoString → GoString × GoString
  | [], grp => (grp, [])
  | d :: rest, grp =>
    if 48 ≤ d ∧ d ≤ 57 then
      let ngrp := grp ++ byteToString d
      if Atoi ngrp > groups then (grp, d :: rest)
      else Replace.digits groups rest ngrp
    else (grp, d :: rest)

/-- The template loop of `Replace` (source lines 90-122) from cursor `c`,
given as the rest of the template `repl[c:]`; `fuel` bounds the number of
passes of the outer `for`, each of which ends the loop or moves the cursor.
The last `else` stands for a pass in which neither `if` of the source
applies, which leaves the cursor where it is; the inner `for` stops only at
the end, on a backslash or on a `$`, so no pass is of that kind. -/
def Replace.template (wm : Matcher) : Nat → GoString → List GoString → Outcome (List GoString)
  | 0, _, _ => Outcome.stuck
  | fuel + 1, rest, parts =>
    let lit := rest.takeWhile fun x => decide (x ≠ 92 ∧ x ≠ 36)
    let rest := rest.dropWhile fun x => decide (x ≠ 92 ∧ x ≠ 36)
    let parts := parts ++ [lit]
    match rest with
    | [] => Outcome.ret parts
    | x :: rest =>
      if x = 92 then
        match rest with
        | y :: rest => Replace.template wm fuel rest (parts ++ [byteToString y])
        | [] => Outcome.panic Panic.escapeMissing
      else if x = 36 then
        let r := Replace.digits wm.Groups rest []
        if r.1 = [] then Outcome.panic Panic.groupIndexMissing
        else
          (wm.GroupString (Atoi r.1)).bind fun g =>
          Replace.template wm fuel r.2 (parts ++ [g])
      else Replace.template wm fuel (x :: rest) parts

/-- The match loop of `Replace` (source lines 83-129); `fuel` bounds the
number of passes of `for wm.Matches()`. -/
def Replace.loop (repl : GoString) : Nat → Matcher → GoString → List GoString → Outcome GoString
  | 0, _, _, _ => Outcome.stuck
  | fuel + 1, wm, subject, parts =>
    if wm.Matches then
      match wm.Index with
      | none => Outcome.panic Panic.indexOutOfRange
      | some idxs =>
        (goSlice subject 0 idxs.1).bind fun pre =>
        (Replace.template wm (repl.length + 1) repl (parts ++ [pre])).bind fun parts =>
        (goSlice subject idxs.2 subject.length).bind fun subject =>
        Replace.loop repl fuel (wm.MatchString subject).1 subject parts
    else Outcome.ret (stringsJoin (parts ++ [subject]))

/-- Source `(*pcreRegexp).Replace`, with `fuel` passes of the match loop
allowed. -/
def Replace (re : Regexp) (fuel : Nat) (subject repl : GoString) : Outcome GoString :=
  Replace.loop repl fuel (re.MatcherString subject) subject []

namespace pcreMatcher

/-- Source `(*pcreMatcher).Groups`. -/
def Groups (m : pcreMatcher) : Nat := m.wm.Groups

/-- Source `(*pcreMatcher).GroupByIdx`. -/
def GroupByIdx (m : pcreMatcher) (idx : Nat) : Outcome GoString := m.wm.GroupString idx

/-- Source `(*pcreMatcher).GroupPresentByIdx`. -/
def GroupPresentByIdx (m : pcreMatcher) (idx : Nat) : Outcome Bool := m.wm.Present idx

/-- Source `(*pcreMatcher).GroupByName`. -/
def GroupByName (m : pcreMatcher) (name : GoString) : Outcome GoString :=
  match m.wm.NamedString name with
  | none => Outcome.ret []
  | some group => group

/-- Source `(*pcreMatcher).GroupPresentByName`. -/
def GroupPresentByName (m : pcreMatcher) (name : GoString) : Outcome Bool :=
  match m.wm.NamedPresent name with
  | none => Outcome.ret false
  | some present => present

/-- Source `(*pcreMatcher).Next`: the returned flag and the matcher after the
call. -/
def Next (m : pcreMatcher) : Outcome (Bool × pcreMatcher) :=
  match m.wm.Index with
  | none => Outcome.ret (false, m)
  | some matchRegion =>
    (goSlice m.subject matchRegion.2 m.subject.length).bind fun subject =>
    let r := m.wm.MatchString subject
    Outcome.ret (r.2, { wm := r.1, subject := subject })

end pcreMatcher

end Matcherpcre

/-! ## Derived notions and sample patterns -/

namespace Matcherpcre

/-- The text one match contributes in place of the matched region: the
template loop of `Replace` run on the whole template from cursor 0, its parts
joined. -/
def Replace.expand (wm : Matcher) (repl : GoString) : Outcome GoString :=
  (Replace.template wm (repl.length + 1) repl []).map stringsJoin

/-- The start offset of a match (entry 0 of its offset vector). -/
def matchStart (ov : List Int) : Nat := (ov.getD 0 0).toNat

/-- The end offset of a match (entry 1 of its offset vector). -/
def matchEnd (ov : List Int) : Nat := (ov.getD 1 0).toNat

/-- Every match the pattern reports ends at offset 1 or later, so that each
rescan starts on a strictly shorter subject. -/
def Progress (re : Regexp) : Prop :=
  ∀ subject ov, re.exec subject = some ov → 1 ≤ matchEnd ov

/-- Every match the pattern reports on a suffix of `subject` ends at offset
1 or later. -/
def ProgressOn (re : Regexp) (subject : GoString) : Prop :=
  ∀ base ov, re.exec (subject.drop base) = some ov → 1 ≤ matchEnd ov

/-- The template expands without failure for every match the pattern
reports on a suffix of `subject`. -/
def ExpandsOn (re : Regexp) (subject repl : GoString) : Prop :=
  ∀ base ov, re.exec (subject.drop base) = some ov →
    ∃ x, Replace.expand (re.MatcherString (subject.drop base)) repl = Outcome.ret x

/-- The decimal value of a string of digits. -/
def decimalValue (s : GoString) : Nat :=
  s.foldl (fun acc d => acc * 10 + (d - 48)) 0

/-- A byte is a decimal digit, `'0'..'9'`. -/
def isDigit (d : Nat) : Prop := 48 ≤ d ∧ d ≤ 57

instance (d : Nat) : Decidable (isDigit d) := by
  unfold isDigit
  exact inferInstance

/-- A template ends in a dangling backslash: reading left to right, where a
backslash takes the next character with it, the last character is a
backslash that no earlier backslash has taken. -/
def danglingBackslash : GoString → Bool
  | [] => false
  | [x] => decide (x = 92)
  | x :: y :: rest => if x = 92 then danglingBackslash rest else danglingBackslash (y :: rest)

/-- The number of successive matches a rescan of the subject finds: the first
match, then the first match of what follows its end, and so on; `none` when
`fuel` rescans do not reach a subject without a match. -/
def countMatches (re : Regexp) : Nat → GoString → Option Nat
  | 0, _ => none
  | fuel + 1, subject =>
    match re.exec subject with
    | none => some 0
    | some ov => (countMatches re fuel (subject.drop (matchEnd ov))).map (· + 1)

/-- The number of non-overlapping matches a subject contains: the matches a
scan of the whole subject finds, each scan starting where the match before
ended (one byte further after a match of length 0), as `find` does in Java;
`execFrom subject pos` is what `pcre_exec` reports on `subject` when its scan
starts at offset `pos` (its `startoffset`, which the adapter leaves at 0);
`none` when `fuel` scans do not reach the end. -/
def countNonOverlapping (execFrom : GoString → Nat → Option (List Int)) :
    Nat → GoString → Nat → Option Nat
  | 0, _, _ => none
  | fuel + 1, subject, pos =>
    if subject.length < pos then some 0
    else
      match execFrom subject pos with
      | none => some 0
      | some ov =>
        (countNonOverlapping execFrom fuel subject
          (if matchEnd ov = matchStart ov then matchEnd ov + 1 else matchEnd ov)).map (· + 1)

/-- The pattern never matches the empty string and does not look at what
precedes the start of a scan: a scan of a subject from offset `pos` finds
what the pattern finds in the suffix from `pos` on, at the same place. -/
def ScansSuffix (re : Regexp) (execFrom : GoString → Nat → Option (List Int)) : Prop :=
  ∀ subject pos, pos ≤ subject.length →
    (re.exec (subject.drop pos) = none → execFrom subject pos = none) ∧
    (∀ ov1, re.exec (subject.drop pos) = some ov1 →
      matchStart ov1 < matchEnd ov1 ∧
      ∃ ov, execFrom subject pos = some ov ∧
        matchStart ov = pos + matchStart ov1 ∧ matchEnd ov = pos + matchEnd ov1)

/-- The flags returned by `j` successive calls of `Next`, in order, and the
matcher after the last call. -/
def pcreMatcher.NextTimes : Nat → pcreMatcher → Outcome (List Bool × pcreMatcher)
  | 0, m => Outcome.ret ([], m)
  | j + 1, m =>
    m.Next.bind fun r =>
    (pcreMatcher.NextTimes j r.2).map fun t => (r.1 :: t.1, t.2)

/-- The template loop of `Replace` with a record of its group lookups: the
outcome of `Replace.template`, and the indices passed to `GroupString`, in
order. -/
def Replace.templateLog (wm : Matcher) :
    Nat → GoString → List GoString → Outcome (List GoString) × List Nat
  | 0, _, _ => (Outcome.stuck, [])
  | fuel + 1, rest, parts =>
    let lit := rest.takeWhile fun x => decide (x ≠ 92 ∧ x ≠ 36)
    let rest := rest.dropWhile fun x => decide (x ≠ 92 ∧ x ≠ 36)
    let parts := parts ++ [lit]
    match rest with
    | [] => (Outcome.ret parts, [])
    | x :: rest =>
      if x = 92 then
        match rest with
        | y :: rest => Replace.templateLog wm fuel rest (parts ++ [byteToString y])
        | [] => (Outcome.panic Panic.escapeMissing, [])
      else if x = 36 then
        let r := Replace.digits wm.Groups rest []
        if r.1 = [] then (Outcome.panic Panic.groupIndexMissing, [])
        else
          match wm.GroupString (Atoi r.1) with
          | Outcome.ret g =>
            ((Replace.templateLog wm fuel r.2 (parts ++ [g])).1,
              Atoi r.1 :: (Replace.templateLog wm fuel r.2 (parts ++ [g])).2)
          | Outcome.panic p => (Outcome.panic p, [Atoi r.1])
          | Outcome.stuck => (Outcome.stuck, [Atoi r.1])
      else Replace.templateLog wm fuel (x :: rest) parts

/-- The match loop of `Replace` with a record of the matches it substitutes:
the outcome of `Replace.loop`, and the state of the library matcher in each
pass that found it on a match, in order. -/
def Replace.loopLog (repl : GoString) :
    Nat → Matcher → GoString → List GoString → Outcome (GoString × List Matcher)
  | 0, _, _, _ => Outcome.stuck
  | fuel + 1, wm, subject, parts =>
    if wm.Matches then
      match wm.Index with
      | none => Outcome.panic Panic.indexOutOfRange
      | some idxs =>
        (goSlice subject 0 idxs.1).bind fun pre =>
        (Replace.template wm (repl.length + 1) repl (parts ++ [pre])).bind fun parts =>
        (goSlice subject idxs.2 subject.length).bind fun subject =>
        (Replace.loopLog repl fuel (wm.MatchString subject).1 subject parts).map fun t =>
          (t.1, wm :: t.2)
    else Outcome.ret (stringsJoin (parts ++ [subject]), [])

/-- Source `Replace` with the record of the matches it substitutes. -/
def Replace.logged (re : Regexp) (fuel : Nat) (subject repl : GoString) :
    Outcome (GoString × List Matcher) :=
  Replace.loopLog repl fuel (re.MatcherString subject) subject []

/-- The matches a cursor visits from a matcher on: the state of its library
matcher now and after each call of `Next` that returns true, up to the call
that returns false; `fuel` bounds the number of calls. -/
def pcreMatcher.visits : Nat → pcreMatcher → Outcome (List Matcher)
  | 0, _ => Outcome.stuck
  | fuel + 1, m =>
    m.Next.bind fun r =>
    if r.1 then (pcreMatcher.visits fuel r.2).map fun t => m.wm :: t
    else Outcome.ret [m.wm]

/-- The matches visited by `Search` followed by `Next` until it returns
false: none when `Search` returns no matcher. -/
def searchVisits (re : Regexp) (fuel : Nat) (subject : GoString) : Outcome (List Matcher) :=
  match Search re subject with
  | none => Outcome.ret []
  | some m => m.visits fuel

/-- What holds of a matcher that `Search` on `subject` gave and `Next` has
moved: it is a matcher of the pattern, its remaining subject is the original
subject from some offset on, and while it has a current match it is the
matcher of the first match in its remaining subject. -/
def Visited (re : Regexp) (subject : GoString) (m : pcreMatcher) : Prop :=
  m.wm.re = re ∧ (∃ base, base ≤ subject.length ∧ m.subject = subject.drop base) ∧
  (m.wm.matched = true →
    ∃ ov, re.exec m.subject = some ov ∧ m.wm = re.MatcherString m.subject)

/-- A pattern that matches the empty string at offset 0 of every subject
(as `x*` does on a subject without a leading `x`). -/
def reEmpty : Regexp where
  groups := 0
  exec := fun _ => some [0, 0, 0]
  names := fun _ => none
  groups_le := by decide
  exec_ok := by
    intro subject ov h
    cases h
    refine ⟨rfl, by decide, ?_⟩
    intro g hg
    have : g = 0 := by omega
    subst this
    right
    simp
  names_ok := by
    intro name g h
    cases h

/-- A pattern without a match in any subject (as `(?!)`). -/
def reNever : Regexp where
  groups := 0
  exec := fun _ => none
  names := fun _ => none
  groups_le := by decide
  exec_ok := by
    intro subject ov h
    cases h
  names_ok := by
    intro name g h
    cases h

/-- A pattern that matches the first byte of every non-empty subject (as
`.` under DOTALL does on single-byte text). -/
def reAny : Regexp where
  groups := 0
  exec := fun subject => match subject with
    | [] => none
    | _ :: _ => some [0, 1, 0]
  names := fun _ => none
  groups_le := by decide
  exec_ok := by
    intro subject ov h
    cases subject with
    | nil => cases h
    | cons x xs =>
      cases h
      refine ⟨rfl, by decide, ?_⟩
      intro g hg
      have : g = 0 := by omega
      subst this
      right
      simp
  names_ok := by
    intro name g h
    cases h

/-- The subject `2023-01-02`. -/
def dateSubject : GoString := [50, 48, 50, 51, 45, 48, 49, 45, 48, 50]

/-- The pattern `^(\d+)-(\d+)-(\d+)$` as it behaves on the subject
`2023-01-02` (groups `2023`, `01`, `02`); on other subjects it is taken to
find nothing. -/
def reDate : Regexp where
  groups := 3
  exec := fun subject =>
    if subject = dateSubject then some [0, 10, 0, 4, 5, 7, 8, 10, 0, 0, 0, 0] else none
  names := fun _ => none
  groups_le := by decide
  exec_ok := by
    intro subject ov h
    by_cases hs : subject = dateSubject
    · simp only [if_pos hs] at h
      cases h
      subst hs
      refine ⟨rfl, by decide, ?_⟩
      intro g hg
      right
      interval_cases g <;> simp [dateSubject]
    · simp only [if_neg hs] at h
      cases h
  names_ok := by
    intro name g h
    cases h

/-- The pattern `a(?<x>b)?(?<y>c*)` as it behaves on the subject `a`: the
whole match is `a`, group 1 (named `x`) takes no part, group 2 (named `y`)
matches the empty string at offset 1; on other subjects it is taken to find
nothing. -/
def reOpt : Regexp where
  groups := 2
  exec := fun subject =>
    if subject = [97] then some [0, 1, -1, -1, 1, 1, 0, 0, 0] else none
  names := fun name =>
    if name = [120] then some 1 else if name = [121] then some 2 else none
  groups_le := by decide
  exec_ok := by
    intro subject ov h
    by_cases hs : subject = [97]
    · simp only [if_pos hs] at h
      cases h
      subst hs
      refine ⟨rfl, by decide, ?_⟩
      intro g hg
      interval_cases g <;> decide
    · simp only [if_neg hs] at h
      cases h
  names_ok := by
    intro name g h
    by_cases h1 : name = [120]
    · simp only [if_pos h1] at h
      cases h
      decide
    · simp only [if_neg h1] at h
      by_cases h2 : name = [121]
      · simp only [if_pos h2] at h
        cases h
        decide
      · simp only [if_neg h2] at h
        cases h

/-- The pattern `^a`: it matches the first byte of a subject that begins
with `a`, and nothing else. -/
def reCaret : Regexp where
  groups := 0
  exec := fun subject => if subject.head? = some 97 then some [0, 1, 0] else none
  names := fun _ => none
  groups_le := by decide
  exec_ok := by
    intro subject ov h
    by_cases hs : subject.head? = some 97
    · simp only [if_pos hs] at h
      cases h
      cases subject with
      | nil => cases hs
      | cons x xs =>
        refine ⟨rfl, by decide, ?_⟩
        intro g hg
        have : g = 0 := by omega
        subst this
        right
        simp
    · simp only [if_neg hs] at h
      cases h
  names_ok := by
    intro name g h
    cases h

/-- The pattern `^a` scanned from a start offset (`pcre_exec` with a
`startoffset`): the anchor holds at offset 0 of the subject only. -/
def caretFrom (subject : GoString) (pos : Nat) : Option (List Int) :=
  if pos = 0 then reCaret.exec subject else none

/-- The pattern that matches one byte, scanned from a start offset: the byte
at that offset. -/
def anyFrom (subject : GoString) (pos : Nat) : Option (List Int) :=
  if pos < subject.length then some [(pos : Int), (pos : Int) + 1, 0] else none

end Matcherpcre

/-! ## Basic facts -/

namespace Matcherpcre

namespace Outcome

@[simp] theorem bind_ret {α β : Type} (a : α) (f : α → Outcome β) : (ret a).bind f = f a := rfl

@[simp] theorem bind_panic {α β : Type} (p : Panic) (f : α → Outcome β) :
    (panic p : Outcome α).bind f = panic p := rfl

@[simp] theorem bind_stuck {α β : Type} (f : α → Outcome β) :
    (stuck : Outcome α).bind f = stuck := rfl

@[simp] theorem map_ret {α β : Type} (a : α) (f : α → β) : (ret a).map f = ret (f a) := rfl

@[simp] theorem map_panic {α β : Type} (p : Panic) (f : α → β) :
    (panic p : Outcome α).map f = panic p := rfl

@[simp] theorem map_stuck {α β : Type} (f : α → β) : (stuck : Outcome α).map f = stuck := rfl

theorem map_map {α β γ : Type} (o : Outcome α) (f : α → β) (g : β → γ) :
    (o.map f).map g = o.map (fun a => g (f a)) := by
  cases o <;> rfl

theorem map_bind {α β γ : Type} (o : Outcome α) (f : α → Outcome β) (g : β → γ) :
    (o.bind f).map g = o.bind (fun a => (f a).map g) := by
  cases o <;> rfl

theorem bind_map {α β γ : Type} (o : Outcome α) (f : α → β) (g : β → Outcome γ) :
    (o.map f).bind g = o.bind (fun a => g (f a)) := by
  cases o <;> rfl

theorem map_id_fun {α : Type} (o : Outcome α) (f : α → α) (h : ∀ a, f a = a) : o.map f = o := by
  cases o <;> simp [h]

end Outcome

@[simp] theorem stringsJoin_nil : stringsJoin [] = [] := rfl

@[simp] theorem stringsJoin_cons (p : GoString) (ps : List GoString) :
    stringsJoin (p :: ps) = p ++ stringsJoin ps := rfl

@[simp] theorem stringsJoin_append (ps qs : List GoString) :
    stringsJoin (ps ++ qs) = stringsJoin ps ++ stringsJoin qs := by
  induction ps with
  | nil => rfl
  | cons p ps ih => simp [ih]

theorem goSlice_front (s : GoString) (e : Int) (h0 : 0 ≤ e) (h1 : e ≤ (s.length : Int)) :
    goSlice s 0 e = Outcome.ret (s.take e.toNat) := by
  simp [goSlice, h0, h1]

theorem goSlice_back (s : GoString) (e : Int) (h0 : 0 ≤ e) (h1 : e ≤ (s.length : Int)) :
    goSlice s e s.length = Outcome.ret (s.drop e.toNat) := by
  simp [goSlice, h0, h1]

/-! ## The library matcher -/

theorem MatcherString_of_match (re : Regexp) (subject : GoString) (ov : List Int)
    (h : re.exec subject = some ov) :
    re.MatcherString subject =
      { re := re, ovector := ov, matched := true, subjects := subject } := by
  simp [Regexp.MatcherString, Matcher.MatchString, h]

theorem MatcherString_of_no_match (re : Regexp) (subject : GoString)
    (h : re.exec subject = none) :
    re.MatcherString subject =
      { re := re, ovector := List.replicate (3 * (1 + re.groups)) 0, matched := false,
        subjects := subject } := by
  simp [Regexp.MatcherString, Matcher.MatchString, h]

theorem MatchString_of_match (wm : Matcher) (subject : GoString) (ov : List Int)
    (h : wm.re.exec subject = some ov) :
    wm.MatchString subject = (wm.re.MatcherString subject, true) := by
  simp [Regexp.MatcherString, Matcher.MatchString, h]

theorem MatchString_of_no_match (wm : Matcher) (subject : GoString)
    (h : wm.re.exec subject = none) :
    wm.MatchString subject =
      ({ wm with matched := false, subjects := subject }, false) := by
  simp [Matcher.MatchString, h]

theorem MatcherString_re (re : Regexp) (subject : GoString) :
    (re.MatcherString subject).re = re := by
  unfold Regexp.MatcherString Matcher.MatchString
  cases re.exec subject <;> rfl

theorem MatchString_re (wm : Matcher) (subject : GoString) :
    (wm.MatchString subject).1.re = wm.re := by
  unfold Matcher.MatchString
  cases wm.re.exec subject <;> rfl

theorem MatchString_matched (wm : Matcher) (subject : GoString) :
    (wm.MatchString subject).1.matched = (wm.re.exec subject).isSome := by
  unfold Matcher.MatchString
  cases wm.re.exec subject <;> rfl

theorem MatchString_flag (wm : Matcher) (subject : GoString) :
    (wm.MatchString subject).2 = (wm.re.exec subject).isSome := by
  unfold Matcher.MatchString
  cases wm.re.exec subject <;> rfl

/-- The whole match of a successful `pcre_exec` lies inside the subject. -/
theorem exec_span (re : Regexp) (subject : GoString) (ov : List Int)
    (h : re.exec subject = some ov) :
    0 ≤ ov.getD 0 0 ∧ ov.getD 0 0 ≤ ov.getD 1 0 ∧ ov.getD 1 0 ≤ (subject.length : Int) := by
  obtain ⟨_, h0, hg⟩ := re.exec_ok subject ov h
  have h2 := hg 0 (Nat.zero_le _)
  simp only [Nat.mul_zero, Nat.zero_add] at h2
  omega

theorem matchStart_le_matchEnd (re : Regexp) (subject : GoString) (ov : List Int)
    (h : re.exec subject = some ov) :
    matchStart ov ≤ matchEnd ov ∧ matchEnd ov ≤ subject.length := by
  obtain ⟨h0, h1, h2⟩ := exec_span re subject ov h
  unfold matchStart matchEnd
  omega

/-! ## The template loop and the match loop carry their parts along -/

theorem template_parts (wm : Matcher) (fuel : Nat) :
    ∀ (rest : GoString) (parts : List GoString),
      Replace.template wm fuel rest parts =
        (Replace.template wm fuel rest []).map (fun ps => parts ++ ps) := by
  induction fuel with
  | zero => intro rest parts; rfl
  | succ fuel ih =>
    intro rest parts
    simp only [Replace.template]
    split
    · simp
    · rename_i x rest1 _
      by_cases hx : x = 92
      · simp only [if_pos hx]
        split
        · rw [ih _ (parts ++ [_] ++ [_]), ih _ ([] ++ [_] ++ [_]), Outcome.map_map]
          simp
        · rfl
      · simp only [if_neg hx]
        by_cases hd : x = 36
        · simp only [if_pos hd]
          split
          · rfl
          · rw [Outcome.map_bind]
            congr 1
            funext g
            rw [ih _ (parts ++ [_] ++ [g]), ih _ ([] ++ [_] ++ [g]), Outcome.map_map]
            simp
        · simp only [if_neg hd]
          rw [ih _ (parts ++ [_]), ih _ ([] ++ [_]), Outcome.map_map]
          simp

theorem loop_parts (repl : GoString) (fuel : Nat) :
    ∀ (wm : Matcher) (subject : GoString) (parts : List GoString),
      Replace.loop repl fuel wm subject parts =
        (Replace.loop repl fuel wm subject []).map (fun r => stringsJoin parts ++ r) := by
  induction fuel with
  | zero => intro wm subject parts; rfl
  | succ fuel ih =>
    intro wm subject parts
    simp only [Replace.loop]
    split
    · split
      · rfl
      · rename_i idxs _
        rw [Outcome.map_bind]
        congr 1
        funext pre
        rw [template_parts wm _ repl (parts ++ [pre]), template_parts wm _ repl ([] ++ [pre])]
        rw [Outcome.bind_map, Outcome.bind_map, Outcome.map_bind]
        congr 1
        funext ps
        rw [Outcome.map_bind]
        congr 1
        funext subject1
        rw [ih _ subject1 (parts ++ [pre] ++ ps), ih _ subject1 ([] ++ [pre] ++ ps),
          Outcome.map_map]
        simp
    · simp

theorem loop_no_match (repl : GoString) (fuel : Nat) (wm : Matcher) (subject : GoString)
    (parts : List GoString) (h : wm.matched = false) :
    Replace.loop repl (fuel + 1) wm subject parts =
      Outcome.ret (stringsJoin (parts ++ [subject])) := by
  simp [Replace.loop, Matcher.Matches, h]

/-- Rescanning with the matcher at hand is as good as a fresh matcher of the
same pattern. -/
theorem loop_MatchString (repl : GoString) (fuel : Nat) (wm : Matcher) (subject : GoString)
    (parts : List GoString) :
    Replace.loop repl fuel (wm.MatchString subject).1 subject parts =
      Replace.loop repl fuel (wm.re.MatcherString subject) subject parts := by
  cases fuel with
  | zero => rfl
  | succ fuel =>
    cases h : wm.re.exec subject with
    | none =>
      rw [loop_no_match, loop_no_match]
      · rw [MatcherString_of_no_match _ _ h]
      · rw [MatchString_of_no_match _ _ h]
    | some ov => rw [MatchString_of_match _ _ _ h]

/-- One pass of the match loop on a subject with a match. -/
theorem loop_match (repl : GoString) (fuel : Nat) (re : Regexp) (subject : GoString)
    (parts : List GoString) (ov : List Int) (h : re.exec subject = some ov) :
    Replace.loop repl (fuel + 1) (re.MatcherString subject) subject parts =
      (Replace.template (re.MatcherString subject) (repl.length + 1) repl
        (parts ++ [subject.take (matchStart ov)])).bind fun ps =>
      Replace.loop repl fuel (re.MatcherString (subject.drop (matchEnd ov)))
        (subject.drop (matchEnd ov)) ps := by
  obtain ⟨h0, h1, h2⟩ := exec_span re subject ov h
  have hm : (re.MatcherString subject).matched = true := by
    rw [MatcherString_of_match _ _ _ h]
  have hi : (re.MatcherString subject).Index = some (ov.getD 0 0, ov.getD 1 0) := by
    rw [MatcherString_of_match _ _ _ h]
    rfl
  simp only [Replace.loop, Matcher.Matches, hm, hi, if_true]
  rw [goSlice_front _ _ h0 (by omega), Outcome.bind_ret]
  congr 1
  funext ps
  rw [goSlice_back _ _ (by omega) h2, Outcome.bind_ret, loop_MatchString, MatcherString_re]
  rfl

/-! ## The cursor of the template loop moves on -/

theorem goSlice_ne_stuck (s : GoString) (lo hi : Int) : goSlice s lo hi ≠ Outcome.stuck := by
  unfold goSlice
  split <;> simp

theorem ovAt_ne_stuck (ov : List Int) (i : Nat) : ovAt ov i ≠ Outcome.stuck := by
  unfold ovAt
  split <;> simp

theorem GroupString_ne_stuck (wm : Matcher) (g : Nat) : wm.GroupString g ≠ Outcome.stuck := by
  unfold Matcher.GroupString
  cases h1 : ovAt wm.ovector (2 * g) with
  | stuck => exact absurd h1 (ovAt_ne_stuck _ _)
  | panic p => simp
  | ret start =>
    cases h2 : ovAt wm.ovector (2 * g + 1) with
    | stuck => exact absurd h2 (ovAt_ne_stuck _ _)
    | panic p => simp
    | ret stop =>
      simp only [Outcome.bind_ret]
      split
      · exact goSlice_ne_stuck _ _ _
      · simp

theorem digits_length (groups : Nat) :
    ∀ (rest grp : GoString), (Replace.digits groups rest grp).2.length ≤ rest.length := by
  intro rest
  induction rest with
  | nil => intro grp; simp [Replace.digits]
  | cons d rest ih =>
    intro grp
    simp only [Replace.digits]
    split
    · split
      · simp
      · exact Nat.le_succ_of_le (ih _)
    · simp

theorem dropWhile_length_le (p : Nat → Bool) (rest : GoString) :
    (rest.dropWhile p).length ≤ rest.length := by
  induction rest with
  | nil => simp
  | cons x rest ih =>
    simp only [List.dropWhile_cons]
    split
    · exact Nat.le_succ_of_le ih
    · exact Nat.le_refl _

/-- The inner `for` of the template loop stops only on a backslash or a `$`. -/
theorem dropWhile_head (rest : GoString) (x : Nat) (rest1 : GoString)
    (h : rest.dropWhile (fun x => decide (x ≠ 92 ∧ x ≠ 36)) = x :: rest1) :
    x = 92 ∨ x = 36 := by
  induction rest with
  | nil => cases h
  | cons a rest ih =>
    rw [List.dropWhile_cons] at h
    split at h
    · exact ih h
    · rename_i hp
      cases h
      simp only [ne_eq, decide_eq_true_eq, not_and, Decidable.not_not] at hp
      by_cases h92 : x = 92
      · exact Or.inl h92
      · exact Or.inr (hp h92)

/-- With more fuel than the template has bytes left, the result of the
template loop does not depend on the fuel. -/
theorem template_fuel (wm : Matcher) (fuel1 : Nat) :
    ∀ (fuel2 : Nat) (rest : GoString) (parts : List GoString),
      rest.length < fuel1 → rest.length < fuel2 →
      Replace.template wm fuel1 rest parts = Replace.template wm fuel2 rest parts := by
  induction fuel1 with
  | zero => intro fuel2 rest parts h1; omega
  | succ fuel1 ih =>
    intro fuel2 rest parts h1 h2
    cases fuel2 with
    | zero => omega
    | succ fuel2 =>
      have hlen := dropWhile_length_le (fun x => decide (x ≠ 92 ∧ x ≠ 36)) rest
      simp only [Replace.template]
      split
      · rfl
      · rename_i x rest1 heq
        rw [heq] at hlen
        simp only [List.length_cons] at hlen
        by_cases hx : x = 92
        · simp only [if_pos hx]
          split
          · simp only [List.length_cons] at hlen
            exact ih _ _ _ (by omega) (by omega)
          · rfl
        · simp only [if_neg hx]
          by_cases hd : x = 36
          · simp only [if_pos hd]
            split
            · rfl
            · congr 1
              funext g
              have := digits_length wm.Groups rest1 []
              exact ih _ _ _ (by omega) (by omega)
          · exfalso
            rcases dropWhile_head _ _ _ heq with h | h
            · exact hx h
            · exact hd h

/-- The template loop ends within its fuel: one pass for each byte of the
template and one more are enough. -/
theorem template_not_stuck (wm : Matcher) (fuel : Nat) :
    ∀ (rest : GoString) (parts : List GoString), rest.length < fuel →
      Replace.template wm fuel rest parts ≠ Outcome.stuck := by
  induction fuel with
  | zero => intro rest parts h; omega
  | succ fuel ih =>
    intro rest parts h
    have hlen := dropWhile_length_le (fun x => decide (x ≠ 92 ∧ x ≠ 36)) rest
    simp only [Replace.template]
    split
    · simp
    · rename_i x rest1 heq
      rw [heq] at hlen
      simp only [List.length_cons] at hlen
      by_cases hx : x = 92
      · simp only [if_pos hx]
        split
        · simp only [List.length_cons] at hlen
          exact ih _ _ (by omega)
        · simp
      · simp only [if_neg hx]
        by_cases hd : x = 36
        · simp only [if_pos hd]
          split
          · simp
          · have := digits_length wm.Groups rest1 []
            cases hg : wm.GroupString (Atoi (Replace.digits wm.Groups rest1 []).1) with
            | ret g => exact ih _ _ (by omega)
            | panic p => simp
            | stuck => exact absurd hg (GroupString_ne_stuck wm _)
        · exfalso
          rcases dropWhile_head _ _ _ heq with h | h
          · exact hx h
          · exact hd h

/-! ## The expansion, byte by byte -/

/-- From any cursor with enough fuel, the joined parts are the joined parts
so far followed by the expansion of the rest of the template. -/
theorem template_eq_expand (wm : Matcher) (fuel : Nat) (rest : GoString)
    (parts : List GoString) (h : rest.length < fuel) :
    (Replace.template wm fuel rest parts).map stringsJoin =
      (Replace.expand wm rest).map (fun r => stringsJoin parts ++ r) := by
  unfold Replace.expand
  rw [template_fuel wm fuel (rest.length + 1) rest parts h (Nat.lt_succ_self _),
    template_parts, Outcome.map_map, Outcome.map_map]
  congr 1
  funext ps
  simp

theorem expand_nil (wm : Matcher) : Replace.expand wm [] = Outcome.ret [] := by
  simp [Replace.expand, Replace.template]

theorem expand_backslash_end (wm : Matcher) :
    Replace.expand wm [92] = Outcome.panic Panic.escapeMissing := by
  simp [Replace.expand, Replace.template]

/-- One pass of the outer `for` of the template loop. -/
theorem template_succ (wm : Matcher) (fuel : Nat) (rest : GoString) (parts : List GoString) :
    Replace.template wm (fuel + 1) rest parts =
      match rest.dropWhile fun x => decide (x ≠ 92 ∧ x ≠ 36) with
      | [] => Outcome.ret (parts ++ [rest.takeWhile fun x => decide (x ≠ 92 ∧ x ≠ 36)])
      | x :: rest1 =>
        if x = 92 then
          match rest1 with
          | y :: rest2 =>
            Replace.template wm fuel rest2
              (parts ++ [rest.takeWhile fun x => decide (x ≠ 92 ∧ x ≠ 36)] ++ [byteToString y])
          | [] => Outcome.panic Panic.escapeMissing
        else if x = 36 then
          if (Replace.digits wm.Groups rest1 []).1 = [] then
            Outcome.panic Panic.groupIndexMissing
          else
            (wm.GroupString (Atoi (Replace.digits wm.Groups rest1 []).1)).bind fun g =>
            Replace.template wm fuel (Replace.digits wm.Groups rest1 []).2
              (parts ++ [rest.takeWhile fun x => decide (x ≠ 92 ∧ x ≠ 36)] ++ [g])
        else
          Replace.template wm fuel (x :: rest1)
            (parts ++ [rest.takeWhile fun x => decide (x ≠ 92 ∧ x ≠ 36)]) := by
  rw [Replace.template]

theorem expand_backslash (wm : Matcher) (y : Nat) (rest : GoString) :
    Replace.expand wm (92 :: y :: rest) =
      (Replace.expand wm rest).map (fun r => byteToString y ++ r) := by
  have hp : (decide ((92 : Nat) ≠ 92 ∧ (92 : Nat) ≠ 36)) = false := by decide
  rw [Replace.expand, List.length_cons, template_succ]
  simp only [List.takeWhile_cons, List.dropWhile_cons, hp, Bool.false_eq_true, if_false, if_true]
  rw [template_eq_expand _ _ _ _ (by simp only [List.length_cons]; omega)]
  congr 1
  funext r
  simp

theorem expand_dollar (wm : Matcher) (rest : GoString) :
    Replace.expand wm (36 :: rest) =
      if (Replace.digits wm.Groups rest []).1 = [] then Outcome.panic Panic.groupIndexMissing
      else
        (wm.GroupString (Atoi (Replace.digits wm.Groups rest []).1)).bind fun g =>
        (Replace.expand wm (Replace.digits wm.Groups rest []).2).map fun r => g ++ r := by
  have hlen := digits_length wm.Groups rest []
  have hp : (decide ((36 : Nat) ≠ 92 ∧ (36 : Nat) ≠ 36)) = false := by decide
  have h36 : ¬ ((36 : Nat) = 92) := by decide
  rw [Replace.expand, List.length_cons, template_succ]
  simp only [List.takeWhile_cons, List.dropWhile_cons, hp, Bool.false_eq_true, if_false,
    if_neg h36, if_true]
  split
  · rfl
  · rw [Outcome.map_bind]
    congr 1
    funext g
    rw [template_eq_expand _ _ _ _ (by omega)]
    congr 1
    funext r
    simp

theorem expand_literal (wm : Matcher) (x : Nat) (rest : GoString) (h92 : x ≠ 92)
    (h36 : x ≠ 36) :
    Replace.expand wm (x :: rest) = (Replace.expand wm rest).map (fun r => x :: r) := by
  have hlen := dropWhile_length_le (fun x => decide (x ≠ 92 ∧ x ≠ 36)) rest
  have hp : (decide (x ≠ 92 ∧ x ≠ 36)) = true := by simp [h92, h36]
  rw [Replace.expand, Replace.expand, List.length_cons, template_succ, template_succ]
  simp only [List.takeWhile_cons, List.dropWhile_cons, hp, if_true]
  split
  · rfl
  · rename_i y rest1 heq
    rw [heq] at hlen
    simp only [List.length_cons] at hlen
    by_cases hy : y = 92
    · simp only [if_pos hy]
      split
      · simp only [List.length_cons] at hlen
        rw [template_eq_expand _ _ _ _ (by omega), template_eq_expand _ _ _ _ (by omega),
          Outcome.map_map]
        congr 1
      · rfl
    · simp only [if_neg hy]
      by_cases hd : y = 36
      · simp only [if_pos hd]
        split
        · rfl
        · have := digits_length wm.Groups rest1 []
          rw [Outcome.map_bind, Outcome.map_bind, Outcome.map_bind]
          congr 1
          funext g
          rw [template_eq_expand _ _ _ _ (by omega), template_eq_expand _ _ _ _ (by omega),
            Outcome.map_map]
          congr 1
      · exfalso
        rcases dropWhile_head _ _ _ heq with h | h
        · exact hy h
        · exact hd h

/-! ## `Replace`, one match at a time -/

theorem Replace_no_match (re : Regexp) (subject repl : GoString) (fuel : Nat)
    (h : re.exec subject = none) :
    Replace re (fuel + 1) subject repl = Outcome.ret subject := by
  unfold Replace
  rw [loop_no_match _ _ _ _ _ (by rw [MatcherString_of_no_match _ _ h])]
  simp

theorem Replace_match (re : Regexp) (subject repl : GoString) (fuel : Nat) (ov : List Int)
    (h : re.exec subject = some ov) :
    Replace re (fuel + 1) subject repl =
      (Replace.expand (re.MatcherString subject) repl).bind fun x =>
      (Replace re fuel (subject.drop (matchEnd ov)) repl).map fun r =>
        subject.take (matchStart ov) ++ x ++ r := by
  unfold Replace Replace.expand
  rw [loop_match repl fuel re subject [] ov h, template_parts, Outcome.bind_map,
    Outcome.bind_map]
  congr 1
  funext ps
  rw [loop_parts]
  congr 1

theorem expand_ne_stuck (wm : Matcher) (repl : GoString) :
    Replace.expand wm repl ≠ Outcome.stuck := by
  unfold Replace.expand
  intro h
  cases ht : Replace.template wm (repl.length + 1) repl [] with
  | ret ps => rw [ht] at h; cases h
  | panic p => rw [ht] at h; cases h
  | stuck => exact template_not_stuck wm _ repl [] (Nat.lt_succ_self _) ht

/-- When every match ends at offset 1 or later, the match loop ends within
one pass for each byte of the subject and one more. -/
theorem Replace_not_stuck (re : Regexp) (hp : Progress re) (repl : GoString) :
    ∀ (fuel : Nat) (subject : GoString), subject.length < fuel →
      Replace re fuel subject repl ≠ Outcome.stuck := by
  intro fuel
  induction fuel with
  | zero => intro subject h; omega
  | succ fuel ih =>
    intro subject h
    cases hx : re.exec subject with
    | none => rw [Replace_no_match _ _ _ _ hx]; simp
    | some ov =>
      rw [Replace_match _ _ _ _ _ hx]
      have h1 := hp subject ov hx
      have h2 := (matchStart_le_matchEnd re subject ov hx).2
      cases he : Replace.expand (re.MatcherString subject) repl with
      | stuck => exact absurd he (expand_ne_stuck _ _)
      | panic p => simp
      | ret x =>
        simp only [Outcome.bind_ret]
        have hlt : (subject.drop (matchEnd ov)).length < fuel := by
          rw [List.length_drop]
          omega
        cases hr : Replace re fuel (subject.drop (matchEnd ov)) repl with
        | stuck => exact absurd hr (ih _ hlt)
        | panic p => simp
        | ret r => simp

/-- Fuel beyond what a run needs does not change its outcome. -/
theorem Replace_fuel_mono (re : Regexp) (repl : GoString) :
    ∀ (fuel : Nat) (subject : GoString), Replace re fuel subject repl ≠ Outcome.stuck →
      Replace re (fuel + 1) subject repl = Replace re fuel subject repl := by
  intro fuel
  induction fuel with
  | zero => intro subject h; exact absurd rfl h
  | succ fuel ih =>
    intro subject h
    cases hx : re.exec subject with
    | none => rw [Replace_no_match _ _ _ _ hx, Replace_no_match _ _ _ _ hx]
    | some ov =>
      rw [Replace_match _ _ _ _ _ hx] at h
      rw [Replace_match _ _ _ _ _ hx, Replace_match _ _ _ _ _ hx]
      cases he : Replace.expand (re.MatcherString subject) repl with
      | stuck => rfl
      | panic p => rfl
      | ret x =>
        rw [he] at h
        simp only [Outcome.bind_ret] at h ⊢
        rw [ih]
        intro hs
        rw [hs] at h
        exact h rfl

/-! ## Group lookups of a match -/

theorem ovAt_of_lt (ov : List Int) (i : Nat) (h : i < ov.length) :
    ovAt ov i = Outcome.ret (ov.getD i 0) := by
  unfold ovAt
  rw [List.getD_eq_getElem?_getD, List.get?_eq_getElem?, List.getElem?_eq_getElem h]
  rfl

/-- A group index up to the capture count is looked up without a panic: the
text is the slice between the group's offsets, or empty for an unset group. -/
theorem GroupString_of_match (re : Regexp) (subject : GoString) (ov : List Int) (g : Nat)
    (h : re.exec subject = some ov) (hg : g ≤ re.groups) :
    (re.MatcherString subject).GroupString g =
      Outcome.ret (if 0 ≤ ov.getD (2 * g) 0 then
        (subject.take (ov.getD (2 * g + 1) 0).toNat).drop (ov.getD (2 * g) 0).toNat else []) := by
  obtain ⟨hlen, _, hall⟩ := re.exec_ok subject ov h
  rw [MatcherString_of_match _ _ _ h]
  unfold Matcher.GroupString
  simp only
  rw [ovAt_of_lt _ _ (by omega), ovAt_of_lt _ _ (by omega)]
  simp only [Outcome.bind_ret]
  rcases hall g hg with hneg | ⟨h0, h1, h2⟩
  · rw [if_neg (by omega), if_neg (by omega)]
  · rw [if_pos h0, if_pos h0]
    unfold goSlice
    rw [if_pos ⟨h0, h1, h2⟩]

theorem digits_Atoi_le (groups : Nat) :
    ∀ (rest grp : GoString), Atoi grp ≤ groups →
      Atoi (Replace.digits groups rest grp).1 ≤ groups := by
  intro rest
  induction rest with
  | nil => intro grp h; simpa [Replace.digits] using h
  | cons d rest ih =>
    intro grp h
    simp only [Replace.digits]
    split
    · split
      · exact h
      · exact ih _ (by omega)
    · exact h

theorem Atoi_nil : Atoi [] = 0 := by
  simp [Atoi]

/-- The group index a `$` reference settles on is at most the capture count. -/
theorem digits_index_le (groups : Nat) (rest : GoString) :
    Atoi (Replace.digits groups rest []).1 ≤ groups :=
  digits_Atoi_le groups rest [] (by rw [Atoi_nil]; exact Nat.zero_le _)

/-! ## The template `$0` -/

theorem digits_zero (groups : Nat) :
    Replace.digits groups [48] [] = ([48], []) := by
  simp [Replace.digits, byteToString, Atoi]

/-- For a match, the template `$0` expands to the matched text. -/
theorem expand_group_zero (re : Regexp) (subject : GoString) (ov : List Int)
    (h : re.exec subject = some ov) :
    Replace.expand (re.MatcherString subject) [36, 48] =
      Outcome.ret ((subject.take (matchEnd ov)).drop (matchStart ov)) := by
  obtain ⟨h0, _, _⟩ := exec_span re subject ov h
  have hA : Atoi [48] = 0 := by simp [Atoi]
  rw [expand_dollar, digits_zero]
  simp only [hA]
  rw [if_neg (by simp), GroupString_of_match re subject ov 0 h (Nat.zero_le _), expand_nil]
  simp only [Nat.mul_zero, Nat.zero_add, if_pos h0, Outcome.bind_ret, Outcome.map_ret,
    List.append_nil]
  rfl

/-- Replacing every match by its own text gives the subject back, once the
match loop ends. -/
theorem Replace_group_zero (re : Regexp) (hp : Progress re) :
    ∀ (fuel : Nat) (subject : GoString), subject.length < fuel →
      Replace re fuel subject [36, 48] = Outcome.ret subject := by
  intro fuel
  induction fuel with
  | zero => intro subject h; omega
  | succ fuel ih =>
    intro subject h
    cases hx : re.exec subject with
    | none => exact Replace_no_match _ _ _ _ hx
    | some ov =>
      have h1 := hp subject ov hx
      obtain ⟨h2, h3⟩ := matchStart_le_matchEnd re subject ov hx
      rw [Replace_match _ _ _ _ _ hx, expand_group_zero _ _ _ hx, Outcome.bind_ret,
        ih _ (by rw [List.length_drop]; omega), Outcome.map_ret]
      congr 1
      rw [← List.take_append_drop (matchEnd ov) subject]
      congr 1
      · have : matchStart ov = min (matchStart ov) (matchEnd ov) := by omega
        conv_rhs => rw [← List.take_append_drop (matchStart ov) (List.take (matchEnd ov) subject)]
        rw [List.take_take, ← this]
        simp
      · simp

/-- A match that ends at offset 0 is found again on the same subject in every
pass: the match loop does not end. -/
theorem Replace_stuck_of_empty_match (re : Regexp) (subject repl : GoString) (ov : List Int)
    (x : GoString) (h : re.exec subject = some ov) (he : matchEnd ov = 0)
    (hx : Replace.expand (re.MatcherString subject) repl = Outcome.ret x) :
    ∀ (fuel : Nat), Replace re fuel subject repl = Outcome.stuck := by
  intro fuel
  induction fuel with
  | zero => rfl
  | succ fuel ih =>
    rw [Replace_match _ _ _ _ _ h, hx, Outcome.bind_ret, he, List.drop_zero, ih]
    rfl

/-! ## The digits of a group reference -/

theorem Atoi_eq_min (s : GoString) : Atoi s = min (decimalValue s) (2 ^ 63 - 1) := rfl

theorem decimalValue_append_single (s : GoString) (d : Nat) :
    decimalValue (s ++ [d]) = decimalValue s * 10 + (d - 48) := by
  simp [decimalValue, List.foldl_append]

theorem decimalValue_le_append (s t : GoString) : decimalValue s ≤ decimalValue (s ++ t) := by
  induction t using List.reverseRecOn with
  | nil => simp
  | append_singleton t d ih =>
    rw [← List.append_assoc, decimalValue_append_single]
    omega

theorem decimalValue_take_mono (s : GoString) (j k : Nat) (h : j ≤ k) :
    decimalValue (s.take j) ≤ decimalValue (s.take k) := by
  have : s.take k = s.take j ++ (s.take k).drop j := by
    conv_lhs => rw [← List.take_append_drop j (s.take k)]
    rw [List.take_take, Nat.min_eq_left h]
  rw [this]
  exact decimalValue_le_append _ _

theorem Atoi_gt_iff (s : GoString) (groups : Nat) (hg : groups ≤ 65535) :
    Atoi s > groups ↔ decimalValue s > groups := by
  rw [Atoi_eq_min]
  have h63 : (2 : Nat) ^ 63 - 1 = 9223372036854775807 := by norm_num
  rw [h63]
  omega

theorem Atoi_eq_decimalValue (s : GoString) (groups : Nat) (hg : groups ≤ 65535)
    (h : decimalValue s ≤ groups) : Atoi s = decimalValue s := by
  rw [Atoi_eq_min]
  have h63 : (2 : Nat) ^ 63 - 1 = 9223372036854775807 := by norm_num
  rw [h63]
  omega

theorem byteToString_digit (d : Nat) (h : isDigit d) : byteToString d = [d] := by
  unfold isDigit at h
  unfold byteToString
  rw [if_pos (show d < 128 by omega)]

/-- The digit loop stops where no digit follows, or where one more digit
would take the number past the capture count. -/
theorem digits_stop (groups : Nat) (hg : groups ≤ 65535) (rest grp : GoString)
    (h : ∀ d, rest.head? = some d → ¬ isDigit d ∨ decimalValue (grp ++ [d]) > groups) :
    Replace.digits groups rest grp = (grp, rest) := by
  cases rest with
  | nil => rfl
  | cons d rest =>
    simp only [Replace.digits]
    by_cases hd : 48 ≤ d ∧ d ≤ 57
    · rw [if_pos hd, byteToString_digit d hd]
      rcases h d rfl with h1 | h1
      · exact absurd hd h1
      · rw [if_pos ((Atoi_gt_iff _ _ hg).2 h1)]
    · rw [if_neg hd]

/-- The digit loop takes the digits one at a time as long as the number
stays within the capture count. -/
theorem digits_take (groups : Nat) (hg : groups ≤ 65535) (tail : GoString) :
    ∀ (k : Nat) (D grp : GoString), k ≤ D.length → (∀ d ∈ D, isDigit d) →
      (∀ j, 1 ≤ j → j ≤ k → decimalValue (grp ++ D.take j) ≤ groups) →
      Replace.digits groups (D ++ tail) grp =
        Replace.digits groups (D.drop k ++ tail) (grp ++ D.take k) := by
  intro k
  induction k with
  | zero => intro D grp _ _ _; simp
  | succ k ih =>
    intro D grp hk hD hle
    cases D with
    | nil => simp at hk
    | cons d D =>
      have hd : isDigit d := hD d (List.mem_cons_self _ _)
      have h1 := hle 1 (Nat.le_refl _) (by omega)
      simp only [List.take_succ_cons, List.take_zero] at h1
      rw [List.cons_append, Replace.digits]
      rw [if_pos (show 48 ≤ d ∧ d ≤ 57 from hd), byteToString_digit d hd,
        if_neg (by rw [Atoi_gt_iff _ _ hg]; omega)]
      simp only [List.length_cons] at hk
      rw [ih D (grp ++ [d]) (by omega) (fun x hx => hD x (List.mem_cons_of_mem _ hx))]
      · simp
      · intro j hj1 hj2
        have := hle (j + 1) (by omega) (by omega)
        simpa using this

/-- Bytes other than the backslash and `$` expand to themselves. -/
theorem expand_literals (wm : Matcher) (tail : GoString) :
    ∀ (lits : GoString), (∀ x ∈ lits, x ≠ 92 ∧ x ≠ 36) →
      Replace.expand wm (lits ++ tail) = (Replace.expand wm tail).map (fun r => lits ++ r) := by
  intro lits
  induction lits with
  | nil =>
    intro _
    rw [Outcome.map_id_fun _ _ (by simp)]
    rfl
  | cons x lits ih =>
    intro h
    obtain ⟨h1, h2⟩ := h x (List.mem_cons_self _ _)
    rw [List.cons_append, expand_literal wm x _ h1 h2,
      ih (fun y hy => h y (List.mem_cons_of_mem _ hy)), Outcome.map_map]
    rfl

/-- A reference `$D`, `D` the digits that follow the `$`, with `k` digits
within the capture count and no more: the text of the group those `k`
digits name, the other digits of `D` as they are, then the expansion of what
follows. -/
theorem expand_reference (re : Regexp) (subject : GoString) (ov : List Int)
    (h : re.exec subject = some ov) (D tail : GoString) (k : Nat)
    (hD : ∀ d ∈ D, isDigit d) (htail : ∀ d, tail.head? = some d → ¬ isDigit d)
    (hk1 : 1 ≤ k) (hk2 : k ≤ D.length)
    (hle : decimalValue (D.take k) ≤ re.groups)
    (hmax : ∀ j, k < j → j ≤ D.length → re.groups < decimalValue (D.take j)) :
    ∃ g, (re.MatcherString subject).GroupString (decimalValue (D.take k)) = Outcome.ret g ∧
      Replace.expand (re.MatcherString subject) (36 :: (D ++ tail)) =
        (Replace.expand (re.MatcherString subject) tail).map (fun r => g ++ (D.drop k ++ r)) := by
  have hgr : (re.MatcherString subject).Groups = re.groups := by
    unfold Matcher.Groups
    rw [MatcherString_re]
  have hdig : Replace.digits re.groups (D ++ tail) [] = (D.take k, D.drop k ++ tail) := by
    rw [digits_take re.groups re.groups_le tail k D [] hk2 hD]
    · rw [List.nil_append]
      apply digits_stop _ re.groups_le
      intro d hd
      by_cases hlt : k < D.length
      · right
        have hdk : (D.drop k ++ tail).head? = (D.drop k).head? := by
          cases hdr : D.drop k with
          | nil =>
            have := congrArg List.length hdr
            rw [List.length_drop] at this
            simp only [List.length_nil] at this
            omega
          | cons a as => rfl
        rw [hdk, List.head?_drop] at hd
        have := hmax (k + 1) (by omega) (by omega)
        rw [List.take_succ, hd] at this
        simpa using this
      · left
        have hk : D.drop k = [] := List.drop_eq_nil_of_le (by omega)
        rw [hk, List.nil_append] at hd
        exact htail d hd
    · intro j _ hj2
      rw [List.nil_append]
      exact le_trans (decimalValue_take_mono D j k hj2) hle
  have hne : D.take k ≠ [] := by
    intro hn
    have := congrArg List.length hn
    rw [List.length_take] at this
    simp only [List.length_nil] at this
    omega
  have hlit : ∀ x ∈ D.drop k, x ≠ 92 ∧ x ≠ 36 := by
    intro x hx
    have := hD x (List.mem_of_mem_drop hx)
    unfold isDigit at this
    omega
  refine ⟨_, GroupString_of_match re subject ov _ h hle, ?_⟩
  rw [expand_dollar, hgr, hdig]
  simp only
  rw [if_neg hne, Atoi_eq_decimalValue _ _ re.groups_le hle,
    GroupString_of_match re subject ov _ h hle, Outcome.bind_ret,
    expand_literals _ _ _ hlit, Outcome.map_map]

/-! ## Templates that end in a dangling backslash -/

theorem Outcome.map_eq_ret {α β : Type} (o : Outcome α) (f : α → β) (b : β)
    (h : o.map f = Outcome.ret b) : ∃ a, o = Outcome.ret a := by
  cases o with
  | ret a => exact ⟨a, rfl⟩
  | panic p => cases h
  | stuck => cases h

theorem Outcome.bind_eq_ret {α β : Type} (o : Outcome α) (f : α → Outcome β) (b : β)
    (h : o.bind f = Outcome.ret b) : ∃ a, o = Outcome.ret a ∧ f a = Outcome.ret b := by
  cases o with
  | ret a => exact ⟨a, rfl, h⟩
  | panic p => cases h
  | stuck => cases h

theorem danglingBackslash_cons (x : Nat) (rest : GoString) (hx : x ≠ 92) :
    danglingBackslash (x :: rest) = danglingBackslash rest := by
  cases rest with
  | nil => simp [danglingBackslash, hx]
  | cons y rest => simp [danglingBackslash, hx]

theorem danglingBackslash_escape (y : Nat) (rest : GoString) :
    danglingBackslash (92 :: y :: rest) = danglingBackslash rest := by
  simp [danglingBackslash]

/-- What the digit loop leaves is the template from some later cursor, and
what it passed over are digits. -/
theorem digits_suffix (groups : Nat) :
    ∀ (rest grp : GoString), ∃ j, j ≤ rest.length ∧
      (Replace.digits groups rest grp).2 = rest.drop j ∧ ∀ x ∈ rest.take j, isDigit x := by
  intro rest
  induction rest with
  | nil => intro grp; exact ⟨0, Nat.le_refl _, rfl, by simp⟩
  | cons d rest ih =>
    intro grp
    rw [Replace.digits]
    by_cases hd : 48 ≤ d ∧ d ≤ 57
    · rw [if_pos hd]
      by_cases ha : Atoi (grp ++ byteToString d) > groups
      · rw [if_pos ha]
        exact ⟨0, Nat.zero_le _, rfl, by simp⟩
      · rw [if_neg ha]
        obtain ⟨j, hj, h1, h2⟩ := ih (grp ++ byteToString d)
        refine ⟨j + 1, by simp only [List.length_cons]; omega, by simpa using h1, ?_⟩
        intro x hx
        rw [List.take_succ_cons, List.mem_cons] at hx
        rcases hx with hx | hx
        · rw [hx]; exact hd
        · exact h2 x hx
    · rw [if_neg hd]
      exact ⟨0, Nat.zero_le _, rfl, by simp⟩

theorem danglingBackslash_drop_digits :
    ∀ (j : Nat) (rest : GoString), (∀ x ∈ rest.take j, isDigit x) →
      danglingBackslash (rest.drop j) = danglingBackslash rest := by
  intro j
  induction j with
  | zero => intro rest _; rfl
  | succ j ih =>
    intro rest h
    cases rest with
    | nil => rfl
    | cons d rest =>
      have hd : isDigit d := h d (by simp)
      have hne : d ≠ 92 := by unfold isDigit at hd; omega
      rw [List.drop_succ_cons, danglingBackslash_cons d rest hne]
      exact ih rest (fun x hx => h x (by rw [List.take_succ_cons]; exact List.mem_cons_of_mem _ hx))

theorem digits_append_backslash (groups : Nat) :
    ∀ (rest grp : GoString),
      Replace.digits groups (rest ++ [92]) grp =
        ((Replace.digits groups rest grp).1, (Replace.digits groups rest grp).2 ++ [92]) := by
  intro rest
  induction rest with
  | nil =>
    intro grp
    rw [List.nil_append, Replace.digits, Replace.digits, if_neg (by omega)]
    rfl
  | cons d rest ih =>
    intro grp
    rw [List.cons_append, Replace.digits, Replace.digits]
    by_cases hd : 48 ≤ d ∧ d ≤ 57
    · rw [if_pos hd, if_pos hd]
      by_cases ha : Atoi (grp ++ byteToString d) > groups
      · rw [if_pos ha, if_pos ha]
        rfl
      · rw [if_neg ha, if_neg ha]
        exact ih _
    · rw [if_neg hd, if_neg hd]
      rfl

/-- For a match, a template that ends in a dangling backslash does not
expand: the expansion panics, with one of the two panics of the source. -/
theorem expand_dangling (re : Regexp) (subject : GoString) (ov : List Int)
    (h : re.exec subject = some ov) :
    ∀ (n : Nat) (repl : GoString), repl.length ≤ n → danglingBackslash repl = true →
      Replace.expand (re.MatcherString subject) repl = Outcome.panic Panic.escapeMissing ∨
      Replace.expand (re.MatcherString subject) repl = Outcome.panic Panic.groupIndexMissing := by
  have hgr : (re.MatcherString subject).Groups = re.groups := by
    unfold Matcher.Groups
    rw [MatcherString_re]
  intro n
  induction n with
  | zero =>
    intro repl hn hd
    have : repl = [] := List.eq_nil_of_length_eq_zero (by omega)
    subst this
    cases hd
  | succ n ih =>
    intro repl hn hd
    cases repl with
    | nil => cases hd
    | cons x rest =>
      simp only [List.length_cons] at hn
      by_cases hx : x = 92
      · subst hx
        cases rest with
        | nil => left; exact expand_backslash_end _
        | cons y rest =>
          simp only [List.length_cons] at hn
          rw [danglingBackslash_escape] at hd
          rw [expand_backslash]
          rcases ih rest (by omega) hd with h1 | h1 <;> rw [h1]
          · left; rfl
          · right; rfl
      · rw [danglingBackslash_cons x rest hx] at hd
        by_cases hdol : x = 36
        · subst hdol
          rw [expand_dollar]
          split
          · right; rfl
          · rw [hgr, GroupString_of_match re subject ov _ h (digits_index_le _ _),
              Outcome.bind_ret]
            obtain ⟨j, hj, h1, h2⟩ := digits_suffix re.groups rest []
            rw [h1]
            have hd2 := danglingBackslash_drop_digits j rest h2
            rw [← hd2] at hd
            rcases ih (rest.drop j) (by rw [List.length_drop]; omega) hd with h3 | h3 <;> rw [h3]
            · left; rfl
            · right; rfl
        · rw [expand_literal _ x rest hx hdol]
          rcases ih rest (by omega) hd with h1 | h1 <;> rw [h1]
          · left; rfl
          · right; rfl

/-- A backslash put after a template that expands makes the expansion panic
for the missing character. -/
theorem expand_append_backslash (wm : Matcher) :
    ∀ (n : Nat) (pre : GoString), pre.length ≤ n →
      ∀ (x : GoString), Replace.expand wm pre = Outcome.ret x →
        Replace.expand wm (pre ++ [92]) = Outcome.panic Panic.escapeMissing := by
  intro n
  induction n with
  | zero =>
    intro pre hn x _
    have : pre = [] := List.eq_nil_of_length_eq_zero (by omega)
    subst this
    exact expand_backslash_end _
  | succ n ih =>
    intro pre hn x hx
    cases pre with
    | nil => exact expand_backslash_end _
    | cons a rest =>
      simp only [List.length_cons] at hn
      by_cases ha : a = 92
      · subst ha
        cases rest with
        | nil => rw [expand_backslash_end] at hx; cases hx
        | cons y rest =>
          simp only [List.length_cons] at hn
          rw [expand_backslash] at hx
          obtain ⟨z, hz⟩ := Outcome.map_eq_ret _ _ _ hx
          rw [List.cons_append, List.cons_append, expand_backslash,
            ih rest (by omega) z hz]
          rfl
      · by_cases hdol : a = 36
        · subst hdol
          rw [expand_dollar] at hx
          rw [List.cons_append, expand_dollar, digits_append_backslash]
          simp only
          by_cases hg : (Replace.digits wm.Groups rest []).1 = []
          · rw [if_pos hg] at hx; cases hx
          · rw [if_neg hg] at hx
            rw [if_neg hg]
            obtain ⟨g, hg1, hg2⟩ := Outcome.bind_eq_ret _ _ _ hx
            obtain ⟨z, hz⟩ := Outcome.map_eq_ret _ _ _ hg2
            have hlen := digits_length wm.Groups rest []
            rw [hg1, Outcome.bind_ret, ih _ (by omega) z hz]
            rfl
        · rw [expand_literal _ a rest ha hdol] at hx
          obtain ⟨z, hz⟩ := Outcome.map_eq_ret _ _ _ hx
          rw [List.cons_append, expand_literal _ a _ ha hdol, ih rest (by omega) z hz]
          rfl

/-! ## A `$` reference, at the cursor of the template loop -/

/-- The digit loop splits the rest of the template: the digits it takes, and
what it leaves. -/
theorem digits_shape (groups : Nat) :
    ∀ (rest grp : GoString), ∃ j, j ≤ rest.length ∧
      Replace.digits groups rest grp = (grp ++ rest.take j, rest.drop j) := by
  intro rest
  induction rest with
  | nil => intro grp; exact ⟨0, Nat.le_refl _, by simp [Replace.digits]⟩
  | cons d rest ih =>
    intro grp
    rw [Replace.digits]
    by_cases hd : 48 ≤ d ∧ d ≤ 57
    · rw [if_pos hd, byteToString_digit d hd]
      by_cases ha : Atoi (grp ++ [d]) > groups
      · rw [if_pos ha]
        exact ⟨0, Nat.zero_le _, by simp⟩
      · rw [if_neg ha]
        obtain ⟨j, hj, h1⟩ := ih (grp ++ [d])
        exact ⟨j + 1, by simp only [List.length_cons]; omega, by rw [h1]; simp⟩
    · rw [if_neg hd]
      exact ⟨0, Nat.zero_le _, by simp⟩

/-- The digit loop takes no digit exactly when the `$` is not followed by a
digit that alone is within the capture count. -/
theorem digits_nil_iff (groups : Nat) (hg : groups ≤ 65535) (rest : GoString) :
    (Replace.digits groups rest []).1 = [] ↔
      ¬ ∃ d r, rest = d :: r ∧ isDigit d ∧ d - 48 ≤ groups := by
  cases rest with
  | nil => simp [Replace.digits]
  | cons d rest =>
    rw [Replace.digits]
    by_cases hd : 48 ≤ d ∧ d ≤ 57
    · rw [if_pos hd, byteToString_digit d hd, List.nil_append]
      have hv : decimalValue [d] = d - 48 := by simp [decimalValue]
      by_cases ha : Atoi [d] > groups
      · rw [if_pos ha]
        rw [Atoi_gt_iff _ _ hg, hv] at ha
        constructor
        · rintro _ ⟨d1, r, h1, _, h3⟩
          cases h1
          omega
        · intro _; rfl
      · rw [if_neg ha]
        rw [Atoi_gt_iff _ _ hg, hv] at ha
        obtain ⟨j, _, h1⟩ := digits_shape groups rest [d]
        rw [h1]
        constructor
        · intro h2; simp at h2
        · intro h2
          exact absurd ⟨d, rest, rfl, hd, by omega⟩ h2
    · rw [if_neg hd]
      constructor
      · rintro _ ⟨d1, r, h1, h2, _⟩
        cases h1
        exact hd h2
      · intro _; rfl

/-- One pass of the template loop with the cursor on a `$`. -/
theorem template_dollar (wm : Matcher) (fuel : Nat) (rest : GoString)
    (parts : List GoString) :
    Replace.template wm (fuel + 1) (36 :: rest) parts =
      if (Replace.digits wm.Groups rest []).1 = [] then Outcome.panic Panic.groupIndexMissing
      else
        (wm.GroupString (Atoi (Replace.digits wm.Groups rest []).1)).bind fun g =>
        Replace.template wm fuel (Replace.digits wm.Groups rest []).2
          (parts ++ [[]] ++ [g]) := by
  have hp : (decide ((36 : Nat) ≠ 92 ∧ (36 : Nat) ≠ 36)) = false := by decide
  have h36 : ¬ ((36 : Nat) = 92) := by decide
  rw [template_succ]
  simp only [List.takeWhile_cons, List.dropWhile_cons, hp, Bool.false_eq_true, if_false,
    if_neg h36, if_true]

/-- For a match, a `$` that is not followed by a digit within the capture
count makes the pass panic; a `$` that is makes it go on, past at least one
digit, with the text of a group added. -/
theorem template_reference (re : Regexp) (subject : GoString) (ov : List Int)
    (h : re.exec subject = some ov) (rest : GoString) :
    ((¬ ∃ d r, rest = d :: r ∧ isDigit d ∧ d - 48 ≤ re.groups) →
      ∀ (fuel : Nat) (parts : List GoString),
        Replace.template (re.MatcherString subject) (fuel + 1) (36 :: rest) parts =
          Outcome.panic Panic.groupIndexMissing) ∧
    ((∃ d r, rest = d :: r ∧ isDigit d ∧ d - 48 ≤ re.groups) →
      ∃ (n : Nat) (g : GoString) (k : Nat), n ≤ re.groups ∧ 1 ≤ k ∧ k ≤ rest.length ∧
        (re.MatcherString subject).GroupString n = Outcome.ret g ∧
        ∀ (fuel : Nat) (parts : List GoString),
          Replace.template (re.MatcherString subject) (fuel + 1) (36 :: rest) parts =
            Replace.template (re.MatcherString subject) fuel (rest.drop k)
              (parts ++ [[]] ++ [g])) := by
  have hgr : (re.MatcherString subject).Groups = re.groups := by
    unfold Matcher.Groups
    rw [MatcherString_re]
  have hiff := digits_nil_iff re.groups re.groups_le rest
  constructor
  · intro hno fuel parts
    rw [template_dollar, hgr, if_pos (hiff.2 hno)]
  · intro hyes
    have hne : ¬ (Replace.digits re.groups rest []).1 = [] := fun hn => hiff.1 hn hyes
    obtain ⟨j, hj, hsh⟩ := digits_shape re.groups rest []
    have hj1 : 1 ≤ j := by
      rcases Nat.eq_zero_or_pos j with h0 | h0
      · subst h0
        rw [hsh] at hne
        simp at hne
      · exact h0
    have hidx := digits_index_le re.groups rest
    refine ⟨_, _, j, hidx, hj1, hj, GroupString_of_match re subject ov _ h hidx, ?_⟩
    intro fuel parts
    rw [template_dollar, hgr, if_neg hne, GroupString_of_match re subject ov _ h hidx,
      Outcome.bind_ret, hsh]

/-! ## The cursor: `Search` and `Next` -/

theorem Search_of_match (re : Regexp) (subject : GoString) (ov : List Int)
    (h : re.exec subject = some ov) :
    Search re subject = some { wm := re.MatcherString subject, subject := subject } := by
  simp [Search, Matcher.Matches, MatcherString_of_match _ _ _ h]

theorem Search_of_no_match (re : Regexp) (subject : GoString) (h : re.exec subject = none) :
    Search re subject = none := by
  simp [Search, Matcher.Matches, MatcherString_of_no_match _ _ h]

theorem Search_eq_some (re : Regexp) (subject : GoString) (m : pcreMatcher)
    (h : Search re subject = some m) :
    (∃ ov, re.exec subject = some ov) ∧
      m = { wm := re.MatcherString subject, subject := subject } := by
  cases hx : re.exec subject with
  | none => rw [Search_of_no_match _ _ hx] at h; cases h
  | some ov =>
    rw [Search_of_match _ _ _ hx] at h
    cases h
    exact ⟨⟨ov, rfl⟩, rfl⟩

/-- Without a current match, `Next` returns false and changes nothing. -/
theorem Next_of_no_match (m : pcreMatcher) (h : m.wm.matched = false) :
    m.Next = Outcome.ret (false, m) := by
  simp [pcreMatcher.Next, Matcher.Index, h]

/-- On the first match of the remaining subject, `Next` cuts the remaining
subject behind the end of that match and rescans. -/
theorem Next_of_match (re : Regexp) (subject : GoString) (ov : List Int)
    (h : re.exec subject = some ov) :
    pcreMatcher.Next { wm := re.MatcherString subject, subject := subject } =
      Outcome.ret
        (((re.MatcherString subject).MatchString (subject.drop (matchEnd ov))).2,
          { wm := ((re.MatcherString subject).MatchString (subject.drop (matchEnd ov))).1,
            subject := subject.drop (matchEnd ov) }) := by
  obtain ⟨h0, h1, h2⟩ := exec_span re subject ov h
  have hi : (re.MatcherString subject).Index = some (ov.getD 0 0, ov.getD 1 0) := by
    rw [MatcherString_of_match _ _ _ h]
    rfl
  simp only [pcreMatcher.Next, hi]
  rw [goSlice_back _ _ (by omega) h2, Outcome.bind_ret]
  rfl

theorem Next_of_match_true (re : Regexp) (subject : GoString) (ov ov1 : List Int)
    (h : re.exec subject = some ov) (h1 : re.exec (subject.drop (matchEnd ov)) = some ov1) :
    pcreMatcher.Next { wm := re.MatcherString subject, subject := subject } =
      Outcome.ret (true,
        { wm := re.MatcherString (subject.drop (matchEnd ov)),
          subject := subject.drop (matchEnd ov) }) := by
  rw [Next_of_match re subject ov h,
    MatchString_of_match _ _ ov1 (by rw [MatcherString_re]; exact h1), MatcherString_re]

theorem Next_of_match_false (re : Regexp) (subject : GoString) (ov : List Int)
    (h : re.exec subject = some ov) (h1 : re.exec (subject.drop (matchEnd ov)) = none) :
    ∃ m1, pcreMatcher.Next { wm := re.MatcherString subject, subject := subject } =
        Outcome.ret (false, m1) ∧
      m1.wm.matched = false ∧ m1.wm.re = re ∧ m1.subject = subject.drop (matchEnd ov) := by
  refine ⟨{ wm := ((re.MatcherString subject).MatchString (subject.drop (matchEnd ov))).1,
             subject := subject.drop (matchEnd ov) }, ?_, ?_, ?_, rfl⟩
  · have hf : ((re.MatcherString subject).MatchString (subject.drop (matchEnd ov))).2 =
        false := by
      rw [MatchString_flag, MatcherString_re, h1]
      rfl
    rw [Next_of_match re subject ov h, hf]
  · show ((re.MatcherString subject).MatchString (subject.drop (matchEnd ov))).1.matched = false
    rw [MatchString_matched, MatcherString_re, h1]
    rfl
  · show ((re.MatcherString subject).MatchString (subject.drop (matchEnd ov))).1.re = re
    rw [MatchString_re, MatcherString_re]

/-- A call of `Next` that returns false leaves a matcher without a current
match. -/
theorem Next_false_unmatched (m m1 : pcreMatcher) (h : m.Next = Outcome.ret (false, m1)) :
    m1.wm.matched = false := by
  unfold pcreMatcher.Next at h
  cases hi : m.wm.Index with
  | none =>
    rw [hi] at h
    cases h
    unfold Matcher.Index at hi
    cases hm : m.wm.matched with
    | false => rfl
    | true => rw [hm] at hi; simp at hi
  | some r =>
    rw [hi] at h
    simp only at h
    cases hs : goSlice m.subject r.2 m.subject.length with
    | ret s1 =>
      rw [hs, Outcome.bind_ret] at h
      simp only [Outcome.ret.injEq, Prod.mk.injEq] at h
      obtain ⟨hf, hm⟩ := h
      subst hm
      show (m.wm.MatchString s1).1.matched = false
      rw [MatchString_matched, ← MatchString_flag]
      exact hf
    | panic p => rw [hs] at h; cases h
    | stuck => rw [hs] at h; cases h

theorem NextTimes_of_no_match (m : pcreMatcher) (h : m.wm.matched = false) :
    ∀ (j : Nat), m.NextTimes j = Outcome.ret (List.replicate j false, m) := by
  intro j
  induction j with
  | zero => rfl
  | succ j ih =>
    rw [pcreMatcher.NextTimes, Next_of_no_match m h, Outcome.bind_ret]
    simp only
    rw [ih]
    rfl

theorem Visited_Search (re : Regexp) (subject : GoString) (m : pcreMatcher)
    (h : Search re subject = some m) : Visited re subject m := by
  obtain ⟨⟨ov, hov⟩, hm⟩ := Search_eq_some re subject m h
  subst hm
  exact ⟨MatcherString_re _ _, ⟨0, Nat.zero_le _, rfl⟩, fun _ => ⟨ov, hov, rfl⟩⟩

/-- A visited matcher with a current match is the matcher of the first match
of its remaining subject. -/
theorem Visited_matched (re : Regexp) (subject : GoString) (m : pcreMatcher)
    (hv : Visited re subject m) (hm : m.wm.matched = true) :
    ∃ ov, re.exec m.subject = some ov ∧
      m = { wm := re.MatcherString m.subject, subject := m.subject } := by
  obtain ⟨ov, hov, hw⟩ := hv.2.2 hm
  refine ⟨ov, hov, ?_⟩
  cases m with
  | mk wm s =>
    simp only at hw
    rw [hw]

theorem Visited_Next (re : Regexp) (subject : GoString) (m m1 : pcreMatcher) (b : Bool)
    (hv : Visited re subject m) (hn : m.Next = Outcome.ret (b, m1)) :
    Visited re subject m1 := by
  cases hm : m.wm.matched with
  | false =>
    rw [Next_of_no_match m hm] at hn
    simp only [Outcome.ret.injEq, Prod.mk.injEq] at hn
    rw [← hn.2]
    exact hv
  | true =>
    obtain ⟨ov, hov, hmeq⟩ := Visited_matched re subject m hv hm
    obtain ⟨base, hb, hbase⟩ := hv.2.1
    have hend := (matchStart_le_matchEnd re m.subject ov hov).2
    have hsub : (m.subject.drop (matchEnd ov)) = subject.drop (base + matchEnd ov) := by
      rw [hbase, List.drop_drop]
    have hle : base + matchEnd ov ≤ subject.length := by
      rw [hbase, List.length_drop] at hend
      omega
    rw [hmeq] at hn
    cases hx : re.exec (m.subject.drop (matchEnd ov)) with
    | none =>
      obtain ⟨m2, h2, h3, h4, h5⟩ := Next_of_match_false re m.subject ov hov hx
      rw [h2] at hn
      simp only [Outcome.ret.injEq, Prod.mk.injEq] at hn
      rw [← hn.2]
      refine ⟨h4, ⟨base + matchEnd ov, hle, by rw [h5, hsub]⟩, ?_⟩
      intro h6
      rw [h3] at h6
      cases h6
    | some ov1 =>
      rw [Next_of_match_true re m.subject ov ov1 hov hx] at hn
      simp only [Outcome.ret.injEq, Prod.mk.injEq] at hn
      rw [← hn.2]
      exact ⟨MatcherString_re _ _, ⟨base + matchEnd ov, hle, hsub⟩, fun _ => ⟨ov1, hx, rfl⟩⟩

/-- On a visited matcher `Next` returns: it does not panic. -/
theorem Visited_Next_returns (re : Regexp) (subject : GoString) (m : pcreMatcher)
    (hv : Visited re subject m) : ∃ b m1, m.Next = Outcome.ret (b, m1) := by
  cases hm : m.wm.matched with
  | false => exact ⟨false, m, Next_of_no_match m hm⟩
  | true =>
    obtain ⟨ov, hov, hmeq⟩ := Visited_matched re subject m hv hm
    rw [hmeq, Next_of_match re m.subject ov hov]
    exact ⟨_, _, rfl⟩

theorem Visited_NextTimes (re : Regexp) (subject : GoString) :
    ∀ (j : Nat) (m m1 : pcreMatcher) (flags : List Bool), Visited re subject m →
      m.NextTimes j = Outcome.ret (flags, m1) → Visited re subject m1 := by
  intro j
  induction j with
  | zero =>
    intro m m1 flags hv h
    simp only [pcreMatcher.NextTimes, Outcome.ret.injEq, Prod.mk.injEq] at h
    rw [← h.2]
    exact hv
  | succ j ih =>
    intro m m1 flags hv h
    rw [pcreMatcher.NextTimes] at h
    obtain ⟨r, hr, h2⟩ := Outcome.bind_eq_ret _ _ _ h
    cases ht : pcreMatcher.NextTimes j r.2 with
    | ret t =>
      rw [ht] at h2
      simp only [Outcome.map_ret, Outcome.ret.injEq, Prod.mk.injEq] at h2
      have hv1 := Visited_Next re subject m r.2 r.1 hv hr
      have := ih r.2 t.2 t.1 hv1 ht
      rw [← h2.2]
      exact this
    | panic p => rw [ht] at h2; cases h2
    | stuck => rw [ht] at h2; cases h2

/-- A successful `Next` on a visited matcher: the remaining subject is cut
behind the end of the match the matcher was on before the call, and the new
current match is the first match of what remains. -/
theorem Visited_Next_true (re : Regexp) (subject : GoString) (m m1 : pcreMatcher)
    (hv : Visited re subject m) (hn : m.Next = Outcome.ret (true, m1)) :
    ∃ base ov ov1, base + matchEnd ov ≤ subject.length ∧
      m.subject = subject.drop base ∧ re.exec m.subject = some ov ∧
      m.wm.Index = some (ov.getD 0 0, ov.getD 1 0) ∧
      m1.subject = subject.drop (base + matchEnd ov) ∧
      re.exec m1.subject = some ov1 ∧
      m1.wm.Index = some (ov1.getD 0 0, ov1.getD 1 0) := by
  cases hm : m.wm.matched with
  | false =>
    rw [Next_of_no_match m hm] at hn
    simp only [Outcome.ret.injEq, Prod.mk.injEq] at hn
    exact absurd hn.1 (by decide)
  | true =>
    obtain ⟨ov, hov, hmeq⟩ := Visited_matched re subject m hv hm
    obtain ⟨base, hb, hbase⟩ := hv.2.1
    have hend := (matchStart_le_matchEnd re m.subject ov hov).2
    have hsub : (m.subject.drop (matchEnd ov)) = subject.drop (base + matchEnd ov) := by
      rw [hbase, List.drop_drop]
    have hle : base + matchEnd ov ≤ subject.length := by
      rw [hbase, List.length_drop] at hend
      omega
    have hidx : m.wm.Index = some (ov.getD 0 0, ov.getD 1 0) := by
      rw [hmeq]
      simp only
      rw [MatcherString_of_match _ _ _ hov]
      rfl
    rw [hmeq] at hn
    cases hx : re.exec (m.subject.drop (matchEnd ov)) with
    | none =>
      obtain ⟨m2, h2, _⟩ := Next_of_match_false re m.subject ov hov hx
      rw [h2] at hn
      simp only [Outcome.ret.injEq, Prod.mk.injEq] at hn
      exact absurd hn.1 (by decide)
    | some ov1 =>
      rw [Next_of_match_true re m.subject ov ov1 hov hx] at hn
      simp only [Outcome.ret.injEq, Prod.mk.injEq] at hn
      refine ⟨base, ov, ov1, hle, hbase, hov, hidx, ?_, ?_, ?_⟩
      · rw [← hn.2]; exact hsub
      · rw [← hn.2]; exact hx
      · rw [← hn.2]
        simp only
        rw [MatcherString_of_match _ _ _ hx]
        rfl

/-- The flags of repeated `Next` calls on the matcher of the first of `k + 1`
successive matches: `k` times true, then false. -/
theorem NextTimes_count (re : Regexp) :
    ∀ (fuel : Nat) (subject : GoString) (ov : List Int) (k : Nat),
      re.exec subject = some ov → countMatches re fuel subject = some (k + 1) →
      ∀ (j : Nat), ∃ m1,
        pcreMatcher.NextTimes j { wm := re.MatcherString subject, subject := subject } =
          Outcome.ret (List.replicate (min j k) true ++ List.replicate (j - k) false, m1) := by
  intro fuel
  induction fuel with
  | zero => intro subject ov k _ hc; cases hc
  | succ fuel ih =>
    intro subject ov k hov hc j
    rw [countMatches, hov] at hc
    simp only at hc
    cases j with
    | zero =>
      exact ⟨{ wm := re.MatcherString subject, subject := subject },
        by simp [pcreMatcher.NextTimes]⟩
    | succ j =>
      rw [pcreMatcher.NextTimes]
      cases hx : re.exec (subject.drop (matchEnd ov)) with
      | none =>
        have hk : k = 0 := by
          cases fuel with
          | zero => cases hc
          | succ fuel =>
            rw [countMatches, hx] at hc
            simp only [Option.map_some', Option.some.injEq] at hc
            omega
        subst hk
        obtain ⟨m2, h2, h3, _⟩ := Next_of_match_false re subject ov hov hx
        rw [h2, Outcome.bind_ret]
        simp only
        rw [NextTimes_of_no_match m2 h3 j]
        exact ⟨m2, by simp [List.replicate_succ]⟩
      | some ov1 =>
        cases hc1 : countMatches re fuel (subject.drop (matchEnd ov)) with
        | none => rw [hc1] at hc; cases hc
        | some k1 =>
          rw [hc1] at hc
          simp only [Option.map_some', Option.some.injEq, Nat.add_right_cancel_iff] at hc
          subst hc
          cases k1 with
          | zero =>
            exfalso
            cases fuel with
            | zero => cases hc1
            | succ fuel =>
              rw [countMatches, hx] at hc1
              simp only at hc1
              cases hc2 : countMatches re fuel
                  (List.drop (matchEnd ov1) (List.drop (matchEnd ov) subject)) with
              | none => rw [hc2] at hc1; cases hc1
              | some k2 =>
                rw [hc2] at hc1
                simp at hc1
          | succ k2 =>
            obtain ⟨m2, h2⟩ := ih _ ov1 k2 hx hc1 j
            rw [Next_of_match_true re subject ov ov1 hov hx, Outcome.bind_ret]
            simp only
            rw [h2]
            refine ⟨m2, ?_⟩
            simp only [Outcome.map_ret, Nat.add_sub_add_right, Nat.add_min_add_right,
              List.replicate_succ, List.cons_append]

/-! ## The sample patterns -/

/-- Every match of the pattern that matches the first byte ends at offset 1. -/
theorem Progress_reAny : Progress reAny := by
  intro subject ov h
  cases subject with
  | nil => cases h
  | cons x xs =>
    cases h
    decide

/-! ## Presence and text of a group -/

/-- A group index up to the capture count has a presence flag: whether the
start offset of the group is set. -/
theorem Present_of_match (re : Regexp) (subject : GoString) (ov : List Int) (g : Nat)
    (h : re.exec subject = some ov) (hg : g ≤ re.groups) :
    (re.MatcherString subject).Present g = Outcome.ret (decide (0 ≤ ov.getD (2 * g) 0)) := by
  obtain ⟨hlen, _, _⟩ := re.exec_ok subject ov h
  rw [MatcherString_of_match _ _ _ h]
  unfold Matcher.Present
  simp only
  rw [ovAt_of_lt _ _ (by omega)]
  rfl

/-- A group that took no part in the match has the empty text. -/
theorem GroupString_of_absent (re : Regexp) (subject : GoString) (ov : List Int) (g : Nat)
    (h : re.exec subject = some ov) (hg : g ≤ re.groups)
    (hp : (re.MatcherString subject).Present g = Outcome.ret false) :
    (re.MatcherString subject).GroupString g = Outcome.ret [] := by
  rw [Present_of_match re subject ov g h hg] at hp
  simp only [Outcome.ret.injEq, decide_eq_false_iff_not] at hp
  rw [GroupString_of_match re subject ov g h hg, if_neg hp]

/-- A group that matched the empty string is present, with the empty text. -/
theorem GroupString_of_empty (re : Regexp) (subject : GoString) (ov : List Int) (g : Nat)
    (h : re.exec subject = some ov) (hg : g ≤ re.groups)
    (h0 : 0 ≤ ov.getD (2 * g) 0) (he : ov.getD (2 * g + 1) 0 = ov.getD (2 * g) 0) :
    (re.MatcherString subject).Present g = Outcome.ret true ∧
    (re.MatcherString subject).GroupString g = Outcome.ret [] := by
  constructor
  · rw [Present_of_match re subject ov g h hg, decide_eq_true h0]
  · rw [GroupString_of_match re subject ov g h hg, if_pos h0, he]
    congr 1
    apply List.drop_eq_nil_of_le
    rw [List.length_take]
    exact Nat.min_le_left _ _

/-- A reference to a group that took no part in the match puts nothing. -/
theorem expand_reference_absent (re : Regexp) (subject : GoString) (ov : List Int)
    (h : re.exec subject = some ov) (D tail : GoString) (k : Nat)
    (hD : ∀ d ∈ D, isDigit d) (htail : ∀ d, tail.head? = some d → ¬ isDigit d)
    (hk1 : 1 ≤ k) (hk2 : k ≤ D.length)
    (hle : decimalValue (D.take k) ≤ re.groups)
    (hmax : ∀ j, k < j → j ≤ D.length → re.groups < decimalValue (D.take j))
    (hp : (re.MatcherString subject).Present (decimalValue (D.take k)) = Outcome.ret false) :
    Replace.expand (re.MatcherString subject) (36 :: (D ++ tail)) =
      (Replace.expand (re.MatcherString subject) tail).map (fun r => D.drop k ++ r) := by
  obtain ⟨g, hg, he⟩ := expand_reference re subject ov h D tail k hD htail hk1 hk2 hle hmax
  rw [GroupString_of_absent re subject ov _ h hle hp] at hg
  cases hg
  rw [he]
  rfl

/-! ## Lookups by name -/

theorem GroupByName_unknown (m : pcreMatcher) (name : GoString)
    (h : m.wm.re.names name = none) :
    m.GroupByName name = Outcome.ret [] ∧ m.GroupPresentByName name = Outcome.ret false := by
  simp [pcreMatcher.GroupByName, pcreMatcher.GroupPresentByName, Matcher.NamedString,
    Matcher.NamedPresent, h]

theorem GroupByName_known (m : pcreMatcher) (name : GoString) (g : Nat)
    (h : m.wm.re.names name = some g) :
    m.GroupByName name = m.wm.GroupString g ∧
    m.GroupPresentByName name = m.wm.Present g := by
  simp [pcreMatcher.GroupByName, pcreMatcher.GroupPresentByName, Matcher.NamedString,
    Matcher.NamedPresent, h]

theorem GroupPresentByName_iff (m : pcreMatcher) (name : GoString) :
    m.GroupPresentByName name = Outcome.ret true ↔
      ∃ g, m.wm.re.names name = some g ∧ m.wm.Present g = Outcome.ret true := by
  cases h : m.wm.re.names name with
  | none =>
    rw [(GroupByName_unknown m name h).2]
    constructor
    · intro h1; cases h1
    · rintro ⟨g, h1, _⟩; cases h1
  | some g =>
    rw [(GroupByName_known m name g h).2]
    constructor
    · intro h1; exact ⟨g, rfl, h1⟩
    · rintro ⟨g1, h1, h2⟩
      cases h1
      exact h2

/-! ## What `Search` returns -/

theorem Search_eq_none_iff (re : Regexp) (subject : GoString) :
    Search re subject = none ↔ re.exec subject = none := by
  constructor
  · intro h
    cases hx : re.exec subject with
    | none => rfl
    | some ov => rw [Search_of_match _ _ _ hx] at h; cases h
  · exact Search_of_no_match re subject

theorem Search_positioned (re : Regexp) (subject : GoString) (m : pcreMatcher)
    (h : Search re subject = some m) :
    m.subject = subject ∧
    ∃ ov, re.exec subject = some ov ∧ m.wm.matched = true ∧ m.wm.ovector = ov ∧
      m.wm.subjects = subject ∧ m.wm.Index = some (ov.getD 0 0, ov.getD 1 0) := by
  obtain ⟨⟨ov, hov⟩, hm⟩ := Search_eq_some re subject m h
  subst hm
  have hw := MatcherString_of_match re subject ov hov
  refine ⟨rfl, ov, hov, ?_, ?_, ?_, ?_⟩
  · show (re.MatcherString subject).matched = true
    rw [hw]
  · show (re.MatcherString subject).ovector = ov
    rw [hw]
  · show (re.MatcherString subject).subjects = subject
    rw [hw]
  · show (re.MatcherString subject).Index = some (ov.getD 0 0, ov.getD 1 0)
    rw [hw]
    rfl

/-! ## The group lookups of the template loop -/

/-- The recording loop computes what the template loop computes. -/
theorem templateLog_fst (wm : Matcher) (fuel : Nat) :
    ∀ (rest : GoString) (parts : List GoString),
      (Replace.templateLog wm fuel rest parts).1 = Replace.template wm fuel rest parts := by
  induction fuel with
  | zero => intro rest parts; rfl
  | succ fuel ih =>
    intro rest parts
    rw [Replace.templateLog, Replace.template]
    simp only
    split
    · rfl
    · rename_i x rest1 _
      by_cases hx : x = 92
      · simp only [if_pos hx]
        split
        · exact ih _ _
        · rfl
      · simp only [if_neg hx]
        by_cases hd : x = 36
        · simp only [if_pos hd]
          split
          · rfl
          · cases hg : wm.GroupString (Atoi (Replace.digits wm.Groups rest1 []).1) with
            | ret g => simp only [Outcome.bind_ret]; exact ih _ _
            | panic p => rfl
            | stuck => rfl
        · simp only [if_neg hd]
          exact ih _ _

/-- Every index the template loop looks up is at most the capture count
that `Groups()` returns. -/
theorem templateLog_le (wm : Matcher) (fuel : Nat) :
    ∀ (rest : GoString) (parts : List GoString),
      ∀ n ∈ (Replace.templateLog wm fuel rest parts).2, n ≤ wm.Groups := by
  induction fuel with
  | zero => intro rest parts n hn; cases hn
  | succ fuel ih =>
    intro rest parts n
    rw [Replace.templateLog]
    simp only
    split
    · intro hn; cases hn
    · rename_i x rest1 _
      by_cases hx : x = 92
      · simp only [if_pos hx]
        split
        · exact ih _ _ n
        · intro hn; cases hn
      · simp only [if_neg hx]
        by_cases hd : x = 36
        · simp only [if_pos hd]
          have hidx := digits_index_le wm.Groups rest1
          split
          · intro hn; cases hn
          · cases hg : wm.GroupString (Atoi (Replace.digits wm.Groups rest1 []).1) with
            | ret g =>
              simp only [List.mem_cons]
              rintro (hn | hn)
              · rw [hn]; exact hidx
              · exact ih _ _ n hn
            | panic p =>
              simp only [List.mem_singleton]
              intro hn
              rw [hn]; exact hidx
            | stuck =>
              simp only [List.mem_singleton]
              intro hn
              rw [hn]; exact hidx
        · simp only [if_neg hd]
          exact ih _ _ n

/-! ## Termination when every match moves on -/

theorem ProgressOn_drop (re : Regexp) (subject : GoString) (n : Nat)
    (hp : ProgressOn re subject) : ProgressOn re (subject.drop n) := by
  intro base ov h
  rw [List.drop_drop] at h
  exact hp _ ov h

theorem ExpandsOn_drop (re : Regexp) (subject repl : GoString) (n : Nat)
    (hw : ExpandsOn re subject repl) : ExpandsOn re (subject.drop n) repl := by
  intro base ov h
  have := hw (n + base) ov (by rw [← List.drop_drop]; exact h)
  rw [← List.drop_drop] at this
  exact this

theorem ProgressOn_of_Progress (re : Regexp) (subject : GoString) (hp : Progress re) :
    ProgressOn re subject :=
  fun _ ov h => hp _ ov h

/-- A match that ends at offset 1 or later leaves a strictly shorter rest. -/
theorem drop_matchEnd_length_lt (re : Regexp) (subject : GoString) (ov : List Int)
    (h : re.exec subject = some ov) (h1 : 1 ≤ matchEnd ov) :
    (subject.drop (matchEnd ov)).length < subject.length := by
  have h2 := (matchStart_le_matchEnd re subject ov h).2
  rw [List.length_drop]
  omega

/-- When every match on a suffix of the subject ends at offset 1 or later,
the match loop ends within one pass for each byte of the subject and one
more. -/
theorem Replace_not_stuck_on (re : Regexp) (repl : GoString) :
    ∀ (fuel : Nat) (subject : GoString), ProgressOn re subject → subject.length < fuel →
      Replace re fuel subject repl ≠ Outcome.stuck := by
  intro fuel
  induction fuel with
  | zero => intro subject _ h; omega
  | succ fuel ih =>
    intro subject hp h
    cases hx : re.exec subject with
    | none => rw [Replace_no_match _ _ _ _ hx]; simp
    | some ov =>
      rw [Replace_match _ _ _ _ _ hx]
      have h1 := hp 0 ov hx
      have hlt := drop_matchEnd_length_lt re subject ov hx h1
      cases he : Replace.expand (re.MatcherString subject) repl with
      | stuck => exact absurd he (expand_ne_stuck _ _)
      | panic p => simp
      | ret x =>
        simp only [Outcome.bind_ret]
        cases hr : Replace re fuel (subject.drop (matchEnd ov)) repl with
        | stuck => exact absurd hr (ih _ (ProgressOn_drop re subject _ hp) (by omega))
        | panic p => simp
        | ret r => simp

/-- With a template that expands for every match met, the call returns a
string. -/
theorem Replace_returns_on (re : Regexp) (repl : GoString) :
    ∀ (fuel : Nat) (subject : GoString), ProgressOn re subject → ExpandsOn re subject repl →
      subject.length < fuel → ∃ r, Replace re fuel subject repl = Outcome.ret r := by
  intro fuel
  induction fuel with
  | zero => intro subject _ _ h; omega
  | succ fuel ih =>
    intro subject hp hw h
    cases hx : re.exec subject with
    | none => exact ⟨subject, Replace_no_match _ _ _ _ hx⟩
    | some ov =>
      rw [Replace_match _ _ _ _ _ hx]
      have h1 := hp 0 ov hx
      have hlt := drop_matchEnd_length_lt re subject ov hx h1
      obtain ⟨x, hx1⟩ := hw 0 ov hx
      rw [List.drop_zero] at hx1
      obtain ⟨r, hr⟩ := ih (subject.drop (matchEnd ov))
        (ProgressOn_drop re subject (matchEnd ov) hp)
        (ExpandsOn_drop re subject repl (matchEnd ov) hw) (by omega)
      rw [hx1, Outcome.bind_ret, hr]
      exact ⟨_, rfl⟩

/-- The rescans find at most as many matches as the subject has bytes. -/
theorem countMatches_on (re : Regexp) :
    ∀ (fuel : Nat) (subject : GoString), ProgressOn re subject → subject.length < fuel →
      ∃ k, k ≤ subject.length ∧ countMatches re fuel subject = some k := by
  intro fuel
  induction fuel with
  | zero => intro subject _ h; omega
  | succ fuel ih =>
    intro subject hp h
    rw [countMatches]
    cases hx : re.exec subject with
    | none => exact ⟨0, Nat.zero_le _, rfl⟩
    | some ov =>
      have h1 := hp 0 ov hx
      have hlt := drop_matchEnd_length_lt re subject ov hx h1
      obtain ⟨k, hk, hc⟩ := ih (subject.drop (matchEnd ov))
        (ProgressOn_drop re subject (matchEnd ov) hp) (by omega)
      refine ⟨k + 1, by omega, ?_⟩
      simp only
      rw [hc]
      rfl

/-- With `k` matches to find, the match loop ends within `k + 1` passes. -/
theorem Replace_not_stuck_of_count (re : Regexp) (repl : GoString) :
    ∀ (fuel : Nat) (subject : GoString) (k : Nat), countMatches re fuel subject = some k →
      Replace re (k + 1) subject repl ≠ Outcome.stuck := by
  intro fuel
  induction fuel with
  | zero => intro subject k h; cases h
  | succ fuel ih =>
    intro subject k h
    rw [countMatches] at h
    cases hx : re.exec subject with
    | none => rw [Replace_no_match _ _ _ _ hx]; simp
    | some ov =>
      rw [hx] at h
      simp only at h
      cases hc : countMatches re fuel (subject.drop (matchEnd ov)) with
      | none => rw [hc] at h; cases h
      | some k1 =>
        rw [hc] at h
        simp only [Option.map_some', Option.some.injEq] at h
        subst h
        rw [Replace_match _ _ _ _ _ hx]
        cases he : Replace.expand (re.MatcherString subject) repl with
        | stuck => exact absurd he (expand_ne_stuck _ _)
        | panic p => simp
        | ret x =>
          simp only [Outcome.bind_ret]
          cases hr : Replace re (k1 + 1) (subject.drop (matchEnd ov)) repl with
          | stuck => exact absurd hr (ih _ k1 hc)
          | panic p => simp
          | ret r => simp

/-- After calls of `Next` of which one returned false, the matcher has no
current match. -/
theorem NextTimes_false_unmatched :
    ∀ (j : Nat) (m m1 : pcreMatcher) (flags : List Bool),
      m.NextTimes j = Outcome.ret (flags, m1) → false ∈ flags → m1.wm.matched = false := by
  intro j
  induction j with
  | zero =>
    intro m m1 flags h hf
    simp only [pcreMatcher.NextTimes, Outcome.ret.injEq, Prod.mk.injEq] at h
    rw [← h.1] at hf
    cases hf
  | succ j ih =>
    intro m m1 flags h hf
    rw [pcreMatcher.NextTimes] at h
    obtain ⟨r, hr, h2⟩ := Outcome.bind_eq_ret _ _ _ h
    cases ht : pcreMatcher.NextTimes j r.2 with
    | ret t =>
      rw [ht] at h2
      simp only [Outcome.map_ret, Outcome.ret.injEq, Prod.mk.injEq] at h2
      obtain ⟨h3, h4⟩ := h2
      rw [← h3, List.mem_cons] at hf
      cases hb : r.1 with
      | false =>
        have hr1 : m.Next = Outcome.ret (false, r.2) := by rw [hr, ← hb]
        have hu := Next_false_unmatched m r.2 hr1
        rw [NextTimes_of_no_match r.2 hu j] at ht
        simp only [Outcome.ret.injEq] at ht
        rw [← h4, ← ht]
        exact hu
      | true =>
        rw [hb] at hf
        rcases hf with hf | hf
        · cases hf
        · rw [← h4]
          exact ih r.2 t.2 t.1 ht hf
    | panic p => rw [ht] at h2; cases h2
    | stuck => rw [ht] at h2; cases h2

/-- When every match on a suffix of the subject ends at offset 1 or later,
the cursor is without a current match after as many `Next` calls as the
subject has bytes. -/
theorem NextTimes_terminal_on (re : Regexp) (subject : GoString) (m0 : pcreMatcher) (k : Nat)
    (hk : k ≤ subject.length) (hc : countMatches re (subject.length + 1) subject = some k)
    (h0 : Search re subject = some m0) :
    ∃ m1, m0.NextTimes subject.length =
        Outcome.ret (List.replicate (k - 1) true ++
          List.replicate (subject.length - (k - 1)) false, m1) ∧
      m1.wm.matched = false := by
  obtain ⟨⟨ov, hov⟩, hm⟩ := Search_eq_some re subject m0 h0
  have hk1 : ∃ k1, k = k1 + 1 := by
    rw [countMatches, hov] at hc
    simp only at hc
    cases hc1 : countMatches re subject.length (subject.drop (matchEnd ov)) with
    | none => rw [hc1] at hc; cases hc
    | some k1 =>
      rw [hc1] at hc
      simp only [Option.map_some', Option.some.injEq] at hc
      exact ⟨k1, hc.symm⟩
  obtain ⟨k1, rfl⟩ := hk1
  obtain ⟨m1, h1⟩ := NextTimes_count re (subject.length + 1) subject ov k1 hov hc
    subject.length
  have hmin : min subject.length k1 = k1 := by omega
  rw [hmin] at h1
  rw [hm]
  refine ⟨m1, h1, ?_⟩
  apply NextTimes_false_unmatched _ _ _ _ h1
  rw [List.mem_append]
  right
  rw [List.mem_replicate]
  exact ⟨by omega, rfl⟩

theorem expand_single_literal (wm : Matcher) (x : Nat) (h92 : x ≠ 92) (h36 : x ≠ 36) :
    Replace.expand wm [x] = Outcome.ret [x] := by
  rw [expand_literal wm x [] h92 h36, expand_nil]
  rfl

/-! ## The remaining subject under `Next` -/

theorem goSlice_from_eq_ret (s : GoString) (e : Int) (t : GoString)
    (h : goSlice s e s.length = Outcome.ret t) :
    0 ≤ e ∧ e ≤ (s.length : Int) ∧ t = s.drop e.toNat := by
  unfold goSlice at h
  split at h
  · rename_i hc
    simp only [Outcome.ret.injEq, Int.toNat_ofNat, List.take_length] at h
    exact ⟨hc.1, hc.2.1, h.symm⟩
  · cases h

/-- What one call of `Next` does to the remaining subject. -/
theorem Next_subject (m m1 : pcreMatcher) (b : Bool) (h : m.Next = Outcome.ret (b, m1)) :
    m1.subject.length ≤ m.subject.length ∧
    (∀ s e, m.wm.Index = some (s, e) →
      0 ≤ e ∧ e ≤ (m.subject.length : Int) ∧ m1.subject = m.subject.drop e.toNat) ∧
    (m.wm.Index = none → m1 = m) := by
  unfold pcreMatcher.Next at h
  cases hi : m.wm.Index with
  | none =>
    rw [hi] at h
    simp only [Outcome.ret.injEq, Prod.mk.injEq] at h
    rw [← h.2]
    exact ⟨Nat.le_refl _, (fun s e he => by cases he), fun _ => rfl⟩
  | some r =>
    rw [hi] at h
    simp only at h
    obtain ⟨t, ht, h2⟩ := Outcome.bind_eq_ret _ _ _ h
    simp only [Outcome.ret.injEq, Prod.mk.injEq] at h2
    obtain ⟨h0, h1, h3⟩ := goSlice_from_eq_ret _ _ _ ht
    have hsub : m1.subject = m.subject.drop r.2.toNat := by
      rw [← h2.2, ← h3]
    refine ⟨?_, ?_, (fun hn => by cases hn)⟩
    · rw [hsub, List.length_drop]
      omega
    · intro s e he
      simp only [Option.some.injEq] at he
      subst he
      exact ⟨h0, h1, hsub⟩

/-! ## `Replace` and the cursor visit the same matches -/

/-- The recording loop computes what the match loop computes. -/
theorem loopLog_fst (repl : GoString) (fuel : Nat) :
    ∀ (wm : Matcher) (subject : GoString) (parts : List GoString),
      (Replace.loopLog repl fuel wm subject parts).map Prod.fst =
        Replace.loop repl fuel wm subject parts := by
  induction fuel with
  | zero => intro wm subject parts; rfl
  | succ fuel ih =>
    intro wm subject parts
    rw [Replace.loopLog, Replace.loop]
    split
    · split
      · rfl
      · rw [Outcome.map_bind]
        congr 1
        funext pre
        rw [Outcome.map_bind]
        congr 1
        funext ps
        rw [Outcome.map_bind]
        congr 1
        funext subject1
        rw [Outcome.map_map]
        exact ih _ _ _
    · rfl

theorem loopLog_no_match (repl : GoString) (fuel : Nat) (wm : Matcher) (subject : GoString)
    (parts : List GoString) (h : wm.matched = false) :
    Replace.loopLog repl (fuel + 1) wm subject parts =
      Outcome.ret (stringsJoin (parts ++ [subject]), []) := by
  simp [Replace.loopLog, Matcher.Matches, h]

theorem loopLog_MatchString (repl : GoString) (fuel : Nat) (wm : Matcher)
    (subject : GoString) (parts : List GoString) :
    Replace.loopLog repl fuel (wm.MatchString subject).1 subject parts =
      Replace.loopLog repl fuel (wm.re.MatcherString subject) subject parts := by
  cases fuel with
  | zero => rfl
  | succ fuel =>
    cases h : wm.re.exec subject with
    | none =>
      rw [loopLog_no_match, loopLog_no_match]
      · rw [MatcherString_of_no_match _ _ h]
      · rw [MatchString_of_no_match _ _ h]
    | some ov => rw [MatchString_of_match _ _ _ h]

/-- One pass of the recording loop on a subject with a match. -/
theorem loopLog_match (repl : GoString) (fuel : Nat) (re : Regexp) (subject : GoString)
    (parts : List GoString) (ov : List Int) (h : re.exec subject = some ov) :
    Replace.loopLog repl (fuel + 1) (re.MatcherString subject) subject parts =
      (Replace.template (re.MatcherString subject) (repl.length + 1) repl
        (parts ++ [subject.take (matchStart ov)])).bind fun ps =>
      (Replace.loopLog repl fuel (re.MatcherString (subject.drop (matchEnd ov)))
        (subject.drop (matchEnd ov)) ps).map fun t =>
          (t.1, re.MatcherString subject :: t.2) := by
  obtain ⟨h0, h1, h2⟩ := exec_span re subject ov h
  have hm : (re.MatcherString subject).matched = true := by
    rw [MatcherString_of_match _ _ _ h]
  have hi : (re.MatcherString subject).Index = some (ov.getD 0 0, ov.getD 1 0) := by
    rw [MatcherString_of_match _ _ _ h]
    rfl
  simp only [Replace.loopLog, Matcher.Matches, hm, hi, if_true]
  rw [goSlice_front _ _ h0 (by omega), Outcome.bind_ret]
  congr 1
  funext ps
  rw [goSlice_back _ _ (by omega) h2, Outcome.bind_ret, loopLog_MatchString, MatcherString_re]
  rfl

theorem searchVisits_no_match (re : Regexp) (fuel : Nat) (subject : GoString)
    (h : re.exec subject = none) : searchVisits re fuel subject = Outcome.ret [] := by
  rw [searchVisits, Search_of_no_match re subject h]

theorem searchVisits_match (re : Regexp) (fuel : Nat) (subject : GoString) (ov : List Int)
    (h : re.exec subject = some ov) :
    searchVisits re fuel subject =
      pcreMatcher.visits fuel { wm := re.MatcherString subject, subject := subject } := by
  rw [searchVisits, Search_of_match re subject ov h]

/-- One call of `Next` in the visit of a matcher on a match. -/
theorem visits_match (re : Regexp) (fuel : Nat) (subject : GoString) (ov : List Int)
    (h : re.exec subject = some ov) :
    pcreMatcher.visits (fuel + 1) { wm := re.MatcherString subject, subject := subject } =
      (searchVisits re fuel (subject.drop (matchEnd ov))).map
        fun t => re.MatcherString subject :: t := by
  rw [pcreMatcher.visits]
  cases hx : re.exec (subject.drop (matchEnd ov)) with
  | none =>
    obtain ⟨m2, h2, _⟩ := Next_of_match_false re subject ov h hx
    rw [h2, Outcome.bind_ret, searchVisits_no_match re fuel _ hx]
    rfl
  | some ov1 =>
    rw [Next_of_match_true re subject ov ov1 h hx, Outcome.bind_ret,
      searchVisits_match re fuel _ ov1 hx]
    rfl

/-- The matches `Replace` substitutes are the matches the cursor visits. -/
theorem loopLog_visits (re : Regexp) (repl : GoString) :
    ∀ (fuel : Nat) (subject : GoString) (parts : List GoString) (r : GoString)
      (L : List Matcher),
      Replace.loopLog repl fuel (re.MatcherString subject) subject parts = Outcome.ret (r, L) →
      searchVisits re fuel subject = Outcome.ret L := by
  intro fuel
  induction fuel with
  | zero => intro subject parts r L h; cases h
  | succ fuel ih =>
    intro subject parts r L h
    cases hx : re.exec subject with
    | none =>
      rw [loopLog_no_match _ _ _ _ _ (by rw [MatcherString_of_no_match _ _ hx])] at h
      simp only [Outcome.ret.injEq, Prod.mk.injEq] at h
      rw [searchVisits_no_match re _ subject hx, h.2]
    | some ov =>
      rw [loopLog_match repl fuel re subject parts ov hx] at h
      obtain ⟨ps, _, h2⟩ := Outcome.bind_eq_ret _ _ _ h
      cases ht : Replace.loopLog repl fuel (re.MatcherString (subject.drop (matchEnd ov)))
          (subject.drop (matchEnd ov)) ps with
      | ret t =>
        rw [ht] at h2
        simp only [Outcome.map_ret, Outcome.ret.injEq, Prod.mk.injEq] at h2
        rw [searchVisits_match re _ subject ov hx, visits_match re fuel subject ov hx,
          ih _ ps t.1 t.2 ht, ← h2.2]
        rfl
      | panic p => rw [ht] at h2; cases h2
      | stuck => rw [ht] at h2; cases h2

theorem template_returns_of_expand (wm : Matcher) (repl x : GoString) (parts : List GoString)
    (h : Replace.expand wm repl = Outcome.ret x) :
    ∃ ps, Replace.template wm (repl.length + 1) repl parts = Outcome.ret ps := by
  unfold Replace.expand at h
  obtain ⟨ps, hps⟩ := Outcome.map_eq_ret _ _ _ h
  rw [template_parts, hps]
  exact ⟨_, rfl⟩

/-- With a template that expands for each match the cursor visits, `Replace`
returns and substitutes those matches. -/
theorem visits_loopLog (re : Regexp) (repl : GoString) :
    ∀ (fuel : Nat) (subject : GoString) (parts : List GoString) (L : List Matcher),
      searchVisits re fuel subject = Outcome.ret L →
      (∀ wm ∈ L, ∃ x, Replace.expand wm repl = Outcome.ret x) →
      ∃ r, Replace.loopLog repl (fuel + 1) (re.MatcherString subject) subject parts =
        Outcome.ret (r, L) := by
  intro fuel
  induction fuel with
  | zero =>
    intro subject parts L h _
    cases hx : re.exec subject with
    | none =>
      rw [searchVisits_no_match re _ subject hx] at h
      simp only [Outcome.ret.injEq] at h
      rw [loopLog_no_match _ _ _ _ _ (by rw [MatcherString_of_no_match _ _ hx]), ← h]
      exact ⟨_, rfl⟩
    | some ov =>
      rw [searchVisits_match re _ subject ov hx] at h
      cases h
  | succ fuel ih =>
    intro subject parts L h hw
    cases hx : re.exec subject with
    | none =>
      rw [searchVisits_no_match re _ subject hx] at h
      simp only [Outcome.ret.injEq] at h
      rw [loopLog_no_match _ _ _ _ _ (by rw [MatcherString_of_no_match _ _ hx]), ← h]
      exact ⟨_, rfl⟩
    | some ov =>
      rw [searchVisits_match re _ subject ov hx, visits_match re fuel subject ov hx] at h
      cases hv : searchVisits re fuel (subject.drop (matchEnd ov)) with
      | ret L1 =>
        rw [hv] at h
        simp only [Outcome.map_ret, Outcome.ret.injEq] at h
        subst h
        obtain ⟨x, hx1⟩ := hw (re.MatcherString subject) (List.mem_cons_self _ _)
        obtain ⟨ps, hps⟩ := template_returns_of_expand _ repl x
          (parts ++ [subject.take (matchStart ov)]) hx1
        obtain ⟨r, hr⟩ := ih (subject.drop (matchEnd ov)) ps L1 hv
          (fun wm hwm => hw wm (List.mem_cons_of_mem _ hwm))
        rw [loopLog_match repl (fuel + 1) re subject parts ov hx, hps, Outcome.bind_ret, hr]
        exact ⟨_, rfl⟩
      | panic p => rw [hv] at h; cases h
      | stuck => rw [hv] at h; cases h

/-! ## Matches of the subject and matches of its suffixes -/

/-- For a pattern that never matches the empty string and does not look at
what precedes the start of a scan, the scan of the subject from an offset
finds as many matches as the rescans of the suffix from that offset on. -/
theorem countNonOverlapping_eq_countMatches (re : Regexp)
    (execFrom : GoString → Nat → Option (List Int)) (hs : ScansSuffix re execFrom) :
    ∀ (fuel : Nat) (subject : GoString) (pos : Nat), pos ≤ subject.length →
      countNonOverlapping execFrom fuel subject pos =
        countMatches re fuel (subject.drop pos) := by
  intro fuel
  induction fuel with
  | zero => intro subject pos _; rfl
  | succ fuel ih =>
    intro subject pos hpos
    obtain ⟨hnone, hsome⟩ := hs subject pos hpos
    rw [countNonOverlapping, countMatches, if_neg (by omega)]
    cases hx : re.exec (subject.drop pos) with
    | none => rw [hnone hx]
    | some ov1 =>
      obtain ⟨hlt, ov, hov, hs1, he1⟩ := hsome ov1 hx
      have hend := (matchStart_le_matchEnd re (subject.drop pos) ov1 hx).2
      rw [List.length_drop] at hend
      rw [hov]
      simp only
      rw [if_neg (by omega), he1, ih subject (pos + matchEnd ov1) (by omega), List.drop_drop]

/-- The pattern that matches one byte finds in a scan from an offset the
byte at that offset. -/
theorem ScansSuffix_reAny : ScansSuffix reAny anyFrom := by
  intro subject pos hpos
  constructor
  · intro h
    have hlen : ¬ pos < subject.length := by
      intro hlt
      cases hd : subject.drop pos with
      | nil =>
        have := congrArg List.length hd
        rw [List.length_drop] at this
        simp only [List.length_nil] at this
        omega
      | cons x xs =>
        rw [hd] at h
        cases h
    unfold anyFrom
    rw [if_neg hlen]
  · intro ov1 h
    cases hd : subject.drop pos with
    | nil =>
      rw [hd] at h
      cases h
    | cons x xs =>
      rw [hd] at h
      cases h
      have hlen : pos < subject.length := by
        have := congrArg List.length hd
        rw [List.length_drop] at this
        simp only [List.length_cons] at this
        omega
      refine ⟨by decide, [(pos : Int), (pos : Int) + 1, 0], ?_, ?_, ?_⟩
      · unfold anyFrom
        rw [if_pos hlen]
      · simp [matchStart]
      · simp only [matchEnd, List.getD_cons_succ, List.getD_cons_zero]
        have h1 : matchEnd [0, 1, 0] = 1 := rfl
        omega

/-- The flags of repeated `Next` calls, from the number of matches the
rescans find. -/
theorem NextTimes_of_count (re : Regexp) (subject : GoString) (fuel k : Nat)
    (hc : countMatches re fuel subject = some k) (hk : 1 ≤ k) :
    ∃ m0, Search re subject = some m0 ∧
      ∀ (j : Nat), ∃ m1,
        m0.NextTimes j =
          Outcome.ret
            (List.replicate (min j (k - 1)) true ++ List.replicate (j - (k - 1)) false, m1) := by
  obtain ⟨k1, rfl⟩ : ∃ k1, k = k1 + 1 := ⟨k - 1, by omega⟩
  cases fuel with
  | zero => cases hc
  | succ fuel =>
    cases hx : re.exec subject with
    | none =>
      rw [countMatches, hx] at hc
      simp at hc
    | some ov =>
      exact ⟨_, Search_of_match re subject ov hx,
        NextTimes_count re (fuel + 1) subject ov k1 hx hc⟩

end Matcherpcre

/-! ## The claims -/

namespace Matcherpcre

/-- C1. For every compiled pattern, subject and template, and every bound
`fuel` on the passes of the match loop: when the pattern has no match in the
subject, `Replace` returns the subject; when the first match spans offsets
`[s, e)`, one more pass makes `Replace` yield the text before the match, the
expanded template of that match, and then whatever `Replace` yields on
`subject[e:]` (a panic of the expansion or of the rest is passed on, and the
call returns exactly when its rest returns). -/
theorem Replace_first_match (re : Regexp) (subject repl : GoString) (fuel : Nat) :
    (re.exec subject = none → Replace re (fuel + 1) subject repl = Outcome.ret subject) ∧
    (∀ ov, re.exec subject = some ov →
      Replace re (fuel + 1) subject repl =
        (Replace.expand (re.MatcherString subject) repl).bind fun x =>
        (Replace re fuel (subject.drop (matchEnd ov)) repl).map fun r =>
          subject.take (matchStart ov) ++ x ++ r) := by
  exact ⟨Replace_no_match re subject repl fuel, Replace_match re subject repl fuel⟩

/-- C2. Round trip of the template `$0`. For every pattern whose matches all
end at offset 1 or later, `Replace(subject, "$0")` returns the subject, with
one pass of the match loop for each byte and one more. On a pattern with a
match that ends at offset 0 (here the empty match at offset 0 of `a`) the
call does not return: whatever the number of passes allowed, the loop has not
ended. -/
theorem Replace_dollar_zero :
    (∀ (re : Regexp), Progress re → ∀ (fuel : Nat) (subject : GoString),
      subject.length < fuel → Replace re fuel subject [36, 48] = Outcome.ret subject) ∧
    (∀ (fuel : Nat), Replace reEmpty fuel [97] [36, 48] = Outcome.stuck) :=
  ⟨fun re hp => Replace_group_zero re hp,
    Replace_stuck_of_empty_match reEmpty [97] [36, 48] [0, 0, 0] [] rfl rfl (by decide)⟩

/-- The pattern that matches the first byte replaces each byte of `ab` by
itself. -/
theorem Replace_dollar_zero_witness :
    Replace reAny 3 [97, 98] [36, 48] = Outcome.ret [97, 98] :=
  Replace_dollar_zero.1 reAny Progress_reAny 3 [97, 98] (by decide)

/-- C3. For a match of a pattern with `G` capture groups and a template
position holding `$` followed by the maximal run of decimal digits `D`: when
`k >= 1` digits of `D` make a number of at most `G` and no longer prefix of
`D` does, the expansion puts the text of the group with that number, then
the digits of `D` after those `k` as they are, then the expansion of what
follows `D`. -/
theorem expand_dollar_digits (re : Regexp) (subject : GoString) (ov : List Int)
    (D tail : GoString) (k : Nat)
    (h : re.exec subject = some ov)
    (hD : ∀ d ∈ D, isDigit d) (htail : ∀ d, tail.head? = some d → ¬ isDigit d)
    (hk1 : 1 ≤ k) (hk2 : k ≤ D.length)
    (hle : decimalValue (D.take k) ≤ re.groups)
    (hmax : ∀ j, k < j → j ≤ D.length → re.groups < decimalValue (D.take j)) :
    ∃ g, (re.MatcherString subject).GroupString (decimalValue (D.take k)) = Outcome.ret g ∧
      Replace.expand (re.MatcherString subject) (36 :: (D ++ tail)) =
        (Replace.expand (re.MatcherString subject) tail).map (fun r => g ++ (D.drop k ++ r)) :=
  expand_reference re subject ov h D tail k hD htail hk1 hk2 hle hmax

/-- The pattern of the date example has 3 groups: on `2023-01-02` the
template `$12` gives group 1 (`2023`) followed by the digit `2`, and
`Replace` with the template `$3/$2/$1` gives `02/01/2023`. -/
theorem expand_dollar_digits_witness :
    Replace.expand (reDate.MatcherString dateSubject) [36, 49, 50] =
      Outcome.ret [50, 48, 50, 51, 50] ∧
    Replace reDate 2 dateSubject [36, 51, 47, 36, 50, 47, 36, 49] =
      Outcome.ret [48, 50, 47, 48, 49, 47, 50, 48, 50, 51] := by
  constructor
  · obtain ⟨g, hg, he⟩ := expand_dollar_digits reDate dateSubject
      [0, 10, 0, 4, 5, 7, 8, 10, 0, 0, 0, 0] [49, 50] [] 1 rfl (by decide) (by simp)
      (by decide) (by decide) (by decide)
      (by
        intro j h1 h2
        simp only [List.length_cons, List.length_nil] at h2
        have hj : j = 2 := by omega
        subst hj
        decide)
    have hg1 : (reDate.MatcherString dateSubject).GroupString
        (decimalValue (List.take 1 [49, 50])) = Outcome.ret [50, 48, 50, 51] := by decide
    rw [hg1] at hg
    cases hg
    exact he
  · decide

/-- C4. What the template loop does with an escape and with a plain byte. A
backslash followed by the byte `y` puts `string(y)`: the byte itself when it
is below 0x80, and otherwise the two bytes of the UTF-8 encoding of the code
point `y`, so that an escaped character of several bytes does not come out
as itself; a byte that is neither a backslash nor `$` is put as it is. At
the template `\é` (bytes 5C C3 A9) `Replace` puts C3 83 A9 where the
character is C3 A9. -/
theorem expand_escape :
    (∀ (wm : Matcher) (y : Nat) (rest : GoString),
      Replace.expand wm (92 :: y :: rest) =
        (Replace.expand wm rest).map
          (fun r => (if y < 128 then [y] else [192 + y / 64, 128 + y % 64]) ++ r)) ∧
    (∀ (wm : Matcher) (x : Nat) (rest : GoString), x ≠ 92 → x ≠ 36 →
      Replace.expand wm (x :: rest) = (Replace.expand wm rest).map (fun r => x :: r)) ∧
    Replace reAny 2 [97] [92, 195, 169] = Outcome.ret [195, 131, 169] :=
  ⟨fun wm y rest => expand_backslash wm y rest,
    fun wm x rest h1 h2 => expand_literal wm x rest h1 h2, by decide⟩

/-- C5, as stated, fails. The template `abc\` ends in a dangling backslash,
yet on a subject without a match `Replace` returns the subject; and with a
match, the dangling template `$\` fails with the panic of the group index,
not with that of the missing character. -/
theorem Replace_dangling_counterexample :
    danglingBackslash [97, 98, 99, 92] = true ∧
    Replace reNever 1 [120] [97, 98, 99, 92] = Outcome.ret [120] ∧
    danglingBackslash [36, 92] = true ∧
    Replace reAny 2 [97] [36, 92] = Outcome.panic Panic.groupIndexMissing := by
  decide

/-- C5, amended. When the pattern has a match in the subject, `Replace` with
a template that ends in a dangling backslash does not return a string: it
panics with "Character to be escaped is missing" or with "Group index is
missing"; and it is the former whenever the template before its last
backslash expands for the first match. -/
theorem Replace_dangling_backslash (re : Regexp) (subject repl : GoString) (ov : List Int)
    (fuel : Nat) (h : re.exec subject = some ov) (hd : danglingBackslash repl = true) :
    (Replace re (fuel + 1) subject repl = Outcome.panic Panic.escapeMissing ∨
      Replace re (fuel + 1) subject repl = Outcome.panic Panic.groupIndexMissing) ∧
    (∀ (pre x : GoString), repl = pre ++ [92] →
      Replace.expand (re.MatcherString subject) pre = Outcome.ret x →
      Replace re (fuel + 1) subject repl = Outcome.panic Panic.escapeMissing) := by
  constructor
  · rw [Replace_match re subject repl fuel ov h]
    rcases expand_dangling re subject ov h repl.length repl (Nat.le_refl _) hd with h1 | h1
    · left; rw [h1]; rfl
    · right; rw [h1]; rfl
  · intro pre x hr hx
    rw [Replace_match re subject repl fuel ov h, hr,
      expand_append_backslash _ pre.length pre (Nat.le_refl _) x hx]
    rfl

/-- The pattern that matches the first byte, the subject `a`, the template
`abc\`. -/
theorem Replace_dangling_backslash_witness :
    reAny.exec [97] = some [0, 1, 0] ∧ danglingBackslash [97, 98, 99, 92] = true ∧
    Replace reAny 2 [97] [97, 98, 99, 92] = Outcome.panic Panic.escapeMissing :=
  ⟨rfl, rfl,
    (Replace_dangling_backslash reAny [97] [97, 98, 99, 92] [0, 1, 0] 1 rfl rfl).2
      [97, 98, 99] [97, 98, 99] rfl (by decide)⟩

/-- C6, as stated, fails. The pattern that matches the first byte has no
capture group; for its match in `a`, the reference `$1` has a digit after
the `$` and still panics with "Group index is missing". -/
theorem template_dollar_counterexample :
    isDigit 49 ∧
    Replace.template (reAny.MatcherString [97]) 3 [36, 49] [] =
      Outcome.panic Panic.groupIndexMissing ∧
    Replace reAny 2 [97] [36, 49] = Outcome.panic Panic.groupIndexMissing := by
  decide

/-- C6, amended. With the cursor of the template loop on an unescaped `$`,
for a match of a pattern with `G` capture groups: the pass panics with "Group
index is missing" when the `$` is not followed by a decimal digit of value
at most `G`; when it is, the pass does not fail: it looks up a group of
index at most `G`, which returns a text, and the loop goes on behind the
digits taken (at least one) with that text added to the parts. -/
theorem template_dollar_reference (re : Regexp) (subject : GoString) (ov : List Int)
    (rest : GoString) (h : re.exec subject = some ov) :
    ((¬ ∃ d r, rest = d :: r ∧ isDigit d ∧ d - 48 ≤ re.groups) →
      ∀ (fuel : Nat) (parts : List GoString),
        Replace.template (re.MatcherString subject) (fuel + 1) (36 :: rest) parts =
          Outcome.panic Panic.groupIndexMissing) ∧
    ((∃ d r, rest = d :: r ∧ isDigit d ∧ d - 48 ≤ re.groups) →
      ∃ (n : Nat) (g : GoString) (k : Nat), n ≤ re.groups ∧ 1 ≤ k ∧ k ≤ rest.length ∧
        (re.MatcherString subject).GroupString n = Outcome.ret g ∧
        ∀ (fuel : Nat) (parts : List GoString),
          Replace.template (re.MatcherString subject) (fuel + 1) (36 :: rest) parts =
            Replace.template (re.MatcherString subject) fuel (rest.drop k)
              (parts ++ [[]] ++ [g])) :=
  template_reference re subject ov h rest

/-- On the match of the date pattern in `2023-01-02` (3 groups): `price: $`
stops at its `$` with the panic, and so does `$5`. -/
theorem template_dollar_reference_witness :
    reDate.exec dateSubject = some [0, 10, 0, 4, 5, 7, 8, 10, 0, 0, 0, 0] ∧
    Replace.template (reDate.MatcherString dateSubject) 1 [36] [[112, 114, 105, 99, 101, 58, 32]] =
      Outcome.panic Panic.groupIndexMissing ∧
    Replace.template (reDate.MatcherString dateSubject) 1 [36, 53] [] =
      Outcome.panic Panic.groupIndexMissing := by
  refine ⟨rfl, ?_, ?_⟩
  · exact (template_dollar_reference reDate dateSubject _ [] rfl).1
      (by rintro ⟨d, r, h1, _⟩; cases h1) 0 _
  · exact (template_dollar_reference reDate dateSubject _ [53] rfl).1
      (by
        rintro ⟨d, r, h1, _, h3⟩
        cases h1
        revert h3
        decide) 0 _

/-- C7. A match that ends at offset 0 of the subject (an empty match at
offset 0) is followed by a rescan of the same subject, which finds the same
match: whenever the template expands for that match, `Replace` has not
returned after any number of passes of its match loop. -/
theorem Replace_empty_match_loops (re : Regexp) (subject repl : GoString) (ov : List Int)
    (x : GoString) (h : re.exec subject = some ov) (he : matchEnd ov = 0)
    (hx : Replace.expand (re.MatcherString subject) repl = Outcome.ret x) :
    ∀ (fuel : Nat), Replace re fuel subject repl = Outcome.stuck :=
  Replace_stuck_of_empty_match re subject repl ov x h he hx

/-- The pattern that matches the empty string at offset 0, the subject `a`,
the empty template. -/
theorem Replace_empty_match_loops_witness :
    reEmpty.exec [97] = some [0, 0, 0] ∧ matchEnd [0, 0, 0] = 0 ∧
    Replace.expand (reEmpty.MatcherString [97]) [] = Outcome.ret [] ∧
    ∀ (fuel : Nat), Replace reEmpty fuel [97] [] = Outcome.stuck :=
  ⟨rfl, rfl, rfl, Replace_empty_match_loops reEmpty [97] [] [0, 0, 0] [] rfl rfl rfl⟩

/-- C8, as stated, fails. The pattern that matches the first byte, on the
subject `aa`: `Search` is on the match `[0, 1)`; `Next` returns true and is
on the match `[0, 1)` of the remaining subject, which is `[1, 2)` of the
original. The remaining subject is the original from offset 1 on (behind the
match before the call), not from offset 2 on (behind the match the cursor is
on now). -/
theorem Next_remaining_subject_counterexample :
    ∃ m0 m1, Search reAny [97, 97] = some m0 ∧ m0.Next = Outcome.ret (true, m1) ∧
      m0.wm.Index = some (0, 1) ∧ m1.wm.Index = some (0, 1) ∧
      m1.subject = List.drop 1 [97, 97] ∧ m1.subject ≠ List.drop (1 + 1) [97, 97] :=
  ⟨{ wm := reAny.MatcherString [97, 97], subject := [97, 97] },
    { wm := reAny.MatcherString [97], subject := [97] },
    rfl, rfl, rfl, rfl, rfl, by decide⟩

/-- C8, amended. For a matcher that `Search(subject)` gave and any number of
`Next` calls on it: after a further call of `Next` that returns true, the
remaining subject is the original subject from right behind the end of the
match the matcher was on before that call (offset `base + end` of the
original, where the remaining subject before the call began at `base`), and
the matcher is on the first match of that remaining subject. -/
theorem Next_remaining_subject (re : Regexp) (subject : GoString) (m0 m m1 : pcreMatcher)
    (j : Nat) (flags : List Bool) (h0 : Search re subject = some m0)
    (hj : m0.NextTimes j = Outcome.ret (flags, m))
    (hn : m.Next = Outcome.ret (true, m1)) :
    ∃ base ov ov1, base + matchEnd ov ≤ subject.length ∧
      m.subject = subject.drop base ∧ re.exec m.subject = some ov ∧
      m.wm.Index = some (ov.getD 0 0, ov.getD 1 0) ∧
      m1.subject = subject.drop (base + matchEnd ov) ∧
      re.exec m1.subject = some ov1 ∧
      m1.wm.Index = some (ov1.getD 0 0, ov1.getD 1 0) :=
  Visited_Next_true re subject m m1
    (Visited_NextTimes re subject j m0 m flags (Visited_Search re subject m0 h0) hj) hn

/-- The pattern that matches the first byte, the subject `aaa`, one `Next`
call and then another. -/
theorem Next_remaining_subject_witness :
    ∃ base ov ov1, base + matchEnd ov ≤ ([97, 97, 97] : GoString).length ∧
      ([97, 97] : GoString) = List.drop base [97, 97, 97] ∧
      reAny.exec [97, 97] = some ov ∧
      (reAny.MatcherString [97, 97]).Index = some (ov.getD 0 0, ov.getD 1 0) ∧
      ([97] : GoString) = List.drop (base + matchEnd ov) [97, 97, 97] ∧
      reAny.exec [97] = some ov1 ∧
      (reAny.MatcherString [97]).Index = some (ov1.getD 0 0, ov1.getD 1 0) :=
  Next_remaining_subject reAny [97, 97, 97]
    { wm := reAny.MatcherString [97, 97, 97], subject := [97, 97, 97] }
    { wm := reAny.MatcherString [97, 97], subject := [97, 97] }
    { wm := reAny.MatcherString [97], subject := [97] } 1 [true] rfl rfl rfl

/-- C9. Once a call of `Next` has returned false, the next call returns
false and leaves the matcher as it is, remaining subject included, and so
does every later call. -/
theorem Next_terminal (m m1 : pcreMatcher) (h : m.Next = Outcome.ret (false, m1)) :
    m1.Next = Outcome.ret (false, m1) ∧
    ∀ (j : Nat), m1.NextTimes j = Outcome.ret (List.replicate j false, m1) :=
  ⟨Next_of_no_match m1 (Next_false_unmatched m m1 h),
    NextTimes_of_no_match m1 (Next_false_unmatched m m1 h)⟩

/-- The pattern that matches the first byte, the subject `a`: the first
`Next` finds nothing in the empty rest. -/
theorem Next_terminal_witness :
    pcreMatcher.Next { wm := reAny.MatcherString [97], subject := [97] } =
      Outcome.ret (false,
        { wm := { re := reAny, ovector := [0, 1, 0], matched := false, subjects := [] },
          subject := [] }) ∧
    pcreMatcher.Next
        { wm := { re := reAny, ovector := [0, 1, 0], matched := false, subjects := [] },
          subject := [] } =
      Outcome.ret (false,
        { wm := { re := reAny, ovector := [0, 1, 0], matched := false, subjects := [] },
          subject := [] }) :=
  ⟨rfl, (Next_terminal { wm := reAny.MatcherString [97], subject := [97] } _ rfl).1⟩

/-- C10, as stated, fails. The subject `aaa` contains exactly one match of
the pattern `^a` (a scan from offset 1 on finds nothing, the anchor holds at
offset 0 only), so with `k = 1` no call of `Next` would return true; but
`Search` gives a matcher and `Next` returns true twice before it returns
false: each rescan takes the suffix as a subject of its own, at whose start
the anchor holds again. -/
theorem Next_count_counterexample :
    (∀ subject, caretFrom subject 0 = reCaret.exec subject) ∧
    countNonOverlapping caretFrom 4 [97, 97, 97] 0 = some 1 ∧
    ∃ m0 m1, Search reCaret [97, 97, 97] = some m0 ∧
      m0.NextTimes 3 = Outcome.ret ([true, true, false], m1) :=
  ⟨fun _ => rfl, by decide,
    { wm := reCaret.MatcherString [97, 97, 97], subject := [97, 97, 97] }, _, rfl, rfl⟩

/-- C10, amended. When the rescans of the subject (the first match, then the
first match of the suffix behind its end, taken as a subject of its own, and
so on) find exactly `k >= 1` matches, `Search` gives a matcher, and `j` calls
of `Next` on it return true `min j (k - 1)` times and then false: true
exactly `k - 1` times, false on every later call. For a pattern that never
matches the empty string and does not look at what precedes the start of a
scan, `k` is the number of non-overlapping matches the subject contains, and
the same holds of it. -/
theorem Next_count (re : Regexp) (subject : GoString) (fuel k : Nat) (hk : 1 ≤ k) :
    (countMatches re fuel subject = some k →
      ∃ m0, Search re subject = some m0 ∧
        ∀ (j : Nat), ∃ m1,
          m0.NextTimes j =
            Outcome.ret
              (List.replicate (min j (k - 1)) true ++
                List.replicate (j - (k - 1)) false, m1)) ∧
    (∀ (execFrom : GoString → Nat → Option (List Int)), ScansSuffix re execFrom →
      countNonOverlapping execFrom fuel subject 0 = some k →
      ∃ m0, Search re subject = some m0 ∧
        ∀ (j : Nat), ∃ m1,
          m0.NextTimes j =
            Outcome.ret
              (List.replicate (min j (k - 1)) true ++
                List.replicate (j - (k - 1)) false, m1)) := by
  refine ⟨fun hc => NextTimes_of_count re subject fuel k hc hk, ?_⟩
  intro execFrom hs hc
  rw [countNonOverlapping_eq_countMatches re execFrom hs fuel subject 0 (Nat.zero_le _),
    List.drop_zero] at hc
  exact NextTimes_of_count re subject fuel k hc hk

/-- The pattern that matches one byte, the subject `aaa` with its 3
non-overlapping matches, which are the 3 matches the rescans find: 5 calls
of `Next` return true, true, false, false, false. -/
theorem Next_count_witness :
    countNonOverlapping anyFrom 4 [97, 97, 97] 0 = some 3 ∧
    countMatches reAny 4 [97, 97, 97] = some 3 ∧
    ∃ m0, Search reAny [97, 97, 97] = some m0 ∧
      ∃ m1, m0.NextTimes 5 = Outcome.ret ([true, true, false, false, false], m1) := by
  refine ⟨rfl, rfl, ?_⟩
  obtain ⟨m0, h0, h1⟩ :=
    (Next_count reAny [97, 97, 97] 4 3 (by decide)).2 anyFrom ScansSuffix_reAny rfl
  exact ⟨m0, h0, h1 5⟩

/-- C11. For a match of a pattern with `G` capture groups and a group index
`i` in `0..G`: `GroupPresentByIdx(i)` and `GroupByIdx(i)` return; when the
flag is false the text is empty, and a template reference that resolves to
`i` then puts nothing; a group whose offsets are set and equal (it matched
the empty string) has the flag true and the empty text, so that the text
alone does not tell the two apart. -/
theorem group_absent_or_empty (re : Regexp) (subject : GoString) (ov : List Int) (i : Nat)
    (h : re.exec subject = some ov) (hi : i ≤ re.groups) :
    (∃ b, pcreMatcher.GroupPresentByIdx
        { wm := re.MatcherString subject, subject := subject } i = Outcome.ret b) ∧
    (∃ t, pcreMatcher.GroupByIdx
        { wm := re.MatcherString subject, subject := subject } i = Outcome.ret t) ∧
    (pcreMatcher.GroupPresentByIdx
        { wm := re.MatcherString subject, subject := subject } i = Outcome.ret false →
      pcreMatcher.GroupByIdx
        { wm := re.MatcherString subject, subject := subject } i = Outcome.ret []) ∧
    (pcreMatcher.GroupPresentByIdx
        { wm := re.MatcherString subject, subject := subject } i = Outcome.ret false →
      ∀ (D tail : GoString) (k : Nat), (∀ d ∈ D, isDigit d) →
        (∀ d, tail.head? = some d → ¬ isDigit d) → 1 ≤ k → k ≤ D.length →
        decimalValue (D.take k) = i →
        (∀ j, k < j → j ≤ D.length → re.groups < decimalValue (D.take j)) →
        Replace.expand (re.MatcherString subject) (36 :: (D ++ tail)) =
          (Replace.expand (re.MatcherString subject) tail).map (fun r => D.drop k ++ r)) ∧
    (0 ≤ ov.getD (2 * i) 0 → ov.getD (2 * i + 1) 0 = ov.getD (2 * i) 0 →
      pcreMatcher.GroupPresentByIdx
          { wm := re.MatcherString subject, subject := subject } i = Outcome.ret true ∧
        pcreMatcher.GroupByIdx
          { wm := re.MatcherString subject, subject := subject } i = Outcome.ret []) := by
  refine ⟨⟨_, Present_of_match re subject ov i h hi⟩,
    ⟨_, GroupString_of_match re subject ov i h hi⟩,
    GroupString_of_absent re subject ov i h hi, ?_,
    GroupString_of_empty re subject ov i h hi⟩
  intro hp D tail k hD htail hk1 hk2 hv hmax
  subst hv
  exact expand_reference_absent re subject ov h D tail k hD htail hk1 hk2 hi hmax hp

/-- The pattern `a(?<x>b)?(?<y>c*)` on `a`: group 1 took no part, group 2
matched the empty string; both have the empty text, only group 2 is present,
and the template `[$1]` expands to `[]`. -/
theorem group_absent_or_empty_witness :
    pcreMatcher.GroupPresentByIdx { wm := reOpt.MatcherString [97], subject := [97] } 1 =
      Outcome.ret false ∧
    pcreMatcher.GroupByIdx { wm := reOpt.MatcherString [97], subject := [97] } 1 =
      Outcome.ret [] ∧
    pcreMatcher.GroupPresentByIdx { wm := reOpt.MatcherString [97], subject := [97] } 2 =
      Outcome.ret true ∧
    pcreMatcher.GroupByIdx { wm := reOpt.MatcherString [97], subject := [97] } 2 =
      Outcome.ret [] ∧
    Replace.expand (reOpt.MatcherString [97]) [91, 36, 49, 93] = Outcome.ret [91, 93] := by
  have hw := group_absent_or_empty reOpt [97] [0, 1, -1, -1, 1, 1, 0, 0, 0] 1 rfl (by decide)
  have hw2 := group_absent_or_empty reOpt [97] [0, 1, -1, -1, 1, 1, 0, 0, 0] 2 rfl (by decide)
  have hp : pcreMatcher.GroupPresentByIdx
      { wm := reOpt.MatcherString [97], subject := [97] } 1 = Outcome.ret false := by decide
  refine ⟨hp, hw.2.2.1 hp, (hw2.2.2.2.2 (by decide) (by decide)).1,
    (hw2.2.2.2.2 (by decide) (by decide)).2, by decide⟩

/-- C12. For every matcher and every name: when the name table of the
pattern does not know the name, `GroupByName` returns the empty string and
`GroupPresentByName` returns false, and neither fails; when the name stands
for group `g`, they return what the backend returns for the text and for the
presence of group `g`; so `GroupPresentByName` returns true exactly when the
name stands for a group that is present. -/
theorem group_by_name (m : pcreMatcher) (name : GoString) :
    (m.wm.re.names name = none →
      m.GroupByName name = Outcome.ret [] ∧ m.GroupPresentByName name = Outcome.ret false) ∧
    (∀ g, m.wm.re.names name = some g →
      m.GroupByName name = m.wm.GroupString g ∧
      m.GroupPresentByName name = m.wm.Present g) ∧
    (m.GroupPresentByName name = Outcome.ret true ↔
      ∃ g, m.wm.re.names name = some g ∧ m.wm.Present g = Outcome.ret true) :=
  ⟨GroupByName_unknown m name, GroupByName_known m name, GroupPresentByName_iff m name⟩

/-- The pattern `a(?<x>b)?(?<y>c*)` on `a`: the unknown name `z` and the
name `x` of the group that took no part both give the empty string and
false; the name `y` of the group that matched the empty string gives the
empty string and true. -/
theorem group_by_name_witness :
    pcreMatcher.GroupByName { wm := reOpt.MatcherString [97], subject := [97] } [122] =
      Outcome.ret [] ∧
    pcreMatcher.GroupPresentByName { wm := reOpt.MatcherString [97], subject := [97] } [122] =
      Outcome.ret false ∧
    pcreMatcher.GroupByName { wm := reOpt.MatcherString [97], subject := [97] } [120] =
      Outcome.ret [] ∧
    pcreMatcher.GroupPresentByName { wm := reOpt.MatcherString [97], subject := [97] } [120] =
      Outcome.ret false ∧
    pcreMatcher.GroupByName { wm := reOpt.MatcherString [97], subject := [97] } [121] =
      Outcome.ret [] ∧
    pcreMatcher.GroupPresentByName { wm := reOpt.MatcherString [97], subject := [97] } [121] =
      Outcome.ret true := by
  have hz := (group_by_name { wm := reOpt.MatcherString [97], subject := [97] } [122]).1
    (by decide)
  exact ⟨hz.1, hz.2, by decide, by decide, by decide, by decide⟩

/-- C13. For every pattern and subject: `Search` returns no matcher exactly
when the pattern has no match in the subject; a matcher it returns has the
whole subject as its remaining subject and is on the first match (the
offsets the backend reported for the subject). `Search` has no other
outcome: it neither fails nor panics. -/
theorem Search_absent_iff (re : Regexp) (subject : GoString) :
    (Search re subject = none ↔ re.exec subject = none) ∧
    (∀ m, Search re subject = some m →
      m.subject = subject ∧
      ∃ ov, re.exec subject = some ov ∧ m.wm.matched = true ∧ m.wm.ovector = ov ∧
        m.wm.subjects = subject ∧ m.wm.Index = some (ov.getD 0 0, ov.getD 1 0)) :=
  ⟨Search_eq_none_iff re subject, Search_positioned re subject⟩

/-- C14, as stated, fails. On the match of the date pattern in `2023-01-02`,
`Groups()` returns 3 (the capture groups, group 0 not counted), and the
template `$3` looks up index 3: an index equal to `Groups()`, outside
`0..Groups()-1`; the lookup returns the text `02` of the third group. -/
theorem template_lookups_counterexample :
    pcreMatcher.Groups { wm := reDate.MatcherString dateSubject, subject := dateSubject } = 3 ∧
    (Replace.templateLog (reDate.MatcherString dateSubject) 3 [36, 51] []).2 = [3] ∧
    ¬ (3 ≤ pcreMatcher.Groups
        { wm := reDate.MatcherString dateSubject, subject := dateSubject } - 1) ∧
    pcreMatcher.GroupByIdx
        { wm := reDate.MatcherString dateSubject, subject := dateSubject } 3 =
      Outcome.ret [48, 50] := by
  decide

/-- C14, amended. For every template and every match, the template loop with
its lookups recorded computes what the template loop computes, and each
group index it looks up is at most `Groups()`, the number of capture groups
without group 0: it lies in `0..Groups()`, the groups the pattern defines,
and the lookup returns a text. -/
theorem template_lookups_in_range (re : Regexp) (subject : GoString) (ov : List Int)
    (fuel : Nat) (rest : GoString) (parts : List GoString)
    (h : re.exec subject = some ov) :
    (Replace.templateLog (re.MatcherString subject) fuel rest parts).1 =
      Replace.template (re.MatcherString subject) fuel rest parts ∧
    ∀ n ∈ (Replace.templateLog (re.MatcherString subject) fuel rest parts).2,
      n ≤ pcreMatcher.Groups { wm := re.MatcherString subject, subject := subject } ∧
      ∃ g, pcreMatcher.GroupByIdx
        { wm := re.MatcherString subject, subject := subject } n = Outcome.ret g := by
  refine ⟨templateLog_fst _ fuel rest parts, ?_⟩
  intro n hn
  have hle := templateLog_le (re.MatcherString subject) fuel rest parts n hn
  have hgr : (re.MatcherString subject).Groups = re.groups := by
    unfold Matcher.Groups
    rw [MatcherString_re]
  exact ⟨hle, _, GroupString_of_match re subject ov n h (by rw [← hgr]; exact hle)⟩

/-- On the match of the date pattern in `2023-01-02`, the template
`$3/$2/$1` looks up the indices 3, 2 and 1, each at most `Groups() = 3`. -/
theorem template_lookups_in_range_witness :
    (Replace.templateLog (reDate.MatcherString dateSubject) 9
      [36, 51, 47, 36, 50, 47, 36, 49] []).2 = [3, 2, 1] ∧
    ∀ n ∈ (Replace.templateLog (reDate.MatcherString dateSubject) 9
        [36, 51, 47, 36, 50, 47, 36, 49] []).2,
      n ≤ pcreMatcher.Groups { wm := reDate.MatcherString dateSubject, subject := dateSubject } ∧
      ∃ g, pcreMatcher.GroupByIdx
        { wm := reDate.MatcherString dateSubject, subject := dateSubject } n = Outcome.ret g :=
  ⟨by decide,
    (template_lookups_in_range reDate dateSubject [0, 10, 0, 4, 5, 7, 8, 10, 0, 0, 0, 0] 9
      [36, 51, 47, 36, 50, 47, 36, 49] [] rfl).2⟩

/-- C15. When the pattern has no match in the subject, `Replace` returns the
subject, whatever the template: the template loop is inside the match loop
and is never entered. -/
theorem Replace_without_match (re : Regexp) (subject repl : GoString) (fuel : Nat)
    (h : re.exec subject = none) :
    Replace re (fuel + 1) subject repl = Outcome.ret subject :=
  Replace_no_match re subject repl fuel h

/-- The pattern without a match, the subject `b`, and the templates `$` and
`\`, neither of which expands for any match. -/
theorem Replace_without_match_witness :
    reNever.exec [98] = none ∧
    Replace reNever 1 [98] [36] = Outcome.ret [98] ∧
    Replace reNever 1 [98] [92] = Outcome.ret [98] ∧
    Replace.expand (reAny.MatcherString [98]) [36] = Outcome.panic Panic.groupIndexMissing ∧
    Replace.expand (reAny.MatcherString [98]) [92] = Outcome.panic Panic.escapeMissing :=
  ⟨rfl, Replace_without_match reNever [98] [36] 0 rfl,
    Replace_without_match reNever [98] [92] 0 rfl, by decide, by decide⟩

/-- C16. When every match the backend reports on a suffix of the subject
ends at offset 1 or later: each rescan is on a strictly shorter suffix;
`Replace` does not run on for ever, its match loop ends within one pass for
each byte and one more, and it returns a string when the template expands
for each match; the rescans find `k` matches with `k` at most the byte length
of the subject, `k + 1` passes of the match loop are enough, and a matcher
from `Search` has no current match after as many `Next` calls as the subject
has bytes (true `k - 1` times, false from then on). -/
theorem Replace_terminates_on (re : Regexp) (subject repl : GoString)
    (hp : ProgressOn re subject) :
    (∀ base ov, re.exec (subject.drop base) = some ov →
      ((subject.drop base).drop (matchEnd ov)).length < (subject.drop base).length) ∧
    Replace re (subject.length + 1) subject repl ≠ Outcome.stuck ∧
    (ExpandsOn re subject repl →
      ∃ r, Replace re (subject.length + 1) subject repl = Outcome.ret r) ∧
    ∃ k, k ≤ subject.length ∧ countMatches re (subject.length + 1) subject = some k ∧
      Replace re (k + 1) subject repl ≠ Outcome.stuck ∧
      ∀ m0, Search re subject = some m0 →
        ∃ m1, m0.NextTimes subject.length =
            Outcome.ret (List.replicate (k - 1) true ++
              List.replicate (subject.length - (k - 1)) false, m1) ∧
          m1.wm.matched = false := by
  obtain ⟨k, hk, hc⟩ := countMatches_on re (subject.length + 1) subject hp (Nat.lt_succ_self _)
  refine ⟨fun base ov h => drop_matchEnd_length_lt re _ ov h (hp base ov h),
    Replace_not_stuck_on re repl _ subject hp (Nat.lt_succ_self _),
    fun hw => Replace_returns_on re repl _ subject hp hw (Nat.lt_succ_self _),
    k, hk, hc, Replace_not_stuck_of_count re repl _ subject k hc, ?_⟩
  intro m0 h0
  exact NextTimes_terminal_on re subject m0 k hk hc h0

/-- The pattern that matches the first byte, the subject `ab`, the template
`x`: 2 matches, 3 passes, 2 calls of `Next`. -/
theorem Replace_terminates_on_witness :
    Replace reAny 3 [97, 98] [120] ≠ Outcome.stuck ∧
    Replace reAny 3 [97, 98] [120] = Outcome.ret [120, 120] ∧
    countMatches reAny 3 [97, 98] = some 2 ∧
    pcreMatcher.NextTimes 2 { wm := reAny.MatcherString [97, 98], subject := [97, 98] } =
      Outcome.ret ([true, false],
        { wm := { re := reAny, ovector := [0, 1, 0], matched := false, subjects := [] },
          subject := [] }) :=
  ⟨(Replace_terminates_on reAny [97, 98] [120]
      (ProgressOn_of_Progress reAny [97, 98] Progress_reAny)).2.1,
    by decide, rfl, rfl⟩

/-- C17. For a matcher that `Search(subject)` gave and any number of `Next`
calls on it: the remaining subject is the original subject from some offset
on; a further call of `Next` returns, the remaining subject after it is not
longer than before, and when the matcher had a current match with end offset
`e` it is the remaining subject before the call without its first `e` bytes,
whatever the call returns; without a current match the call changes
nothing. -/
theorem Next_remaining_suffix (re : Regexp) (subject : GoString) (m0 m : pcreMatcher)
    (j : Nat) (flags : List Bool) (h0 : Search re subject = some m0)
    (hj : m0.NextTimes j = Outcome.ret (flags, m)) :
    (∃ base, base ≤ subject.length ∧ m.subject = subject.drop base) ∧
    (∃ b m1, m.Next = Outcome.ret (b, m1)) ∧
    ∀ b m1, m.Next = Outcome.ret (b, m1) →
      m1.subject.length ≤ m.subject.length ∧
      (∀ s e, m.wm.Index = some (s, e) →
        0 ≤ e ∧ e ≤ (m.subject.length : Int) ∧ m1.subject = m.subject.drop e.toNat) ∧
      (m.wm.Index = none → m1 = m) := by
  have hv := Visited_NextTimes re subject j m0 m flags (Visited_Search re subject m0 h0) hj
  exact ⟨hv.2.1, Visited_Next_returns re subject m hv, fun b m1 h => Next_subject m m1 b h⟩

/-- The pattern that matches the first byte, the subject `ab`, after one
call of `Next`: the remaining subject `b` is the subject from offset 1 on,
and the next call, which finds nothing, leaves the empty string. -/
theorem Next_remaining_suffix_witness :
    (∃ base, base ≤ ([97, 98] : GoString).length ∧ ([98] : GoString) = List.drop base [97, 98]) ∧
    pcreMatcher.Next { wm := reAny.MatcherString [98], subject := [98] } =
      Outcome.ret (false,
        { wm := { re := reAny, ovector := [0, 1, 0], matched := false, subjects := [] },
          subject := [] }) :=
  ⟨(Next_remaining_suffix reAny [97, 98]
      { wm := reAny.MatcherString [97, 98], subject := [97, 98] }
      { wm := reAny.MatcherString [98], subject := [98] } 1 [true] rfl rfl).1, rfl⟩

/-- C18. For every pattern, subject and template and every bound on the
passes: `Replace` with its matches recorded computes what `Replace`
computes; when it returns, the matches it has substituted (the states of the
library matcher, which hold the offsets and the subject that give the text
and the presence of every group) are, in the same order, the matches visited
by `Search` followed by `Next` until it returns false; and when that
iteration ends and the template expands for each match visited, `Replace`
returns and has substituted exactly those matches. -/
theorem Replace_visits_same_matches (re : Regexp) (subject repl : GoString) (fuel : Nat) :
    (Replace.logged re fuel subject repl).map Prod.fst = Replace re fuel subject repl ∧
    (∀ r L, Replace.logged re fuel subject repl = Outcome.ret (r, L) →
      searchVisits re fuel subject = Outcome.ret L) ∧
    (∀ L, searchVisits re fuel subject = Outcome.ret L →
      (∀ wm ∈ L, ∃ x, Replace.expand wm repl = Outcome.ret x) →
      ∃ r, Replace.logged re (fuel + 1) subject repl = Outcome.ret (r, L)) :=
  ⟨loopLog_fst repl fuel _ subject [],
    fun r L h => loopLog_visits re repl fuel subject [] r L h,
    fun L h hw => visits_loopLog re repl fuel subject [] L h hw⟩

/-- The pattern that matches the first byte, the subject `ab`, the template
`x`: `Replace` substitutes the match in `ab` and then the match in `b`, the
two matches the cursor visits. -/
theorem Replace_visits_same_matches_witness :
    Replace.logged reAny 3 [97, 98] [120] =
      Outcome.ret ([120, 120], [reAny.MatcherString [97, 98], reAny.MatcherString [98]]) ∧
    searchVisits reAny 3 [97, 98] =
      Outcome.ret [reAny.MatcherString [97, 98], reAny.MatcherString [98]] :=
  ⟨rfl, (Replace_visits_same_matches reAny [97, 98] [120] 3).2.1 _ _ rfl⟩

end Matcherpcre
